import Mathlib

/-!
Verification of the signature aggregation and conflict-resolution engine of
`src/.scripts/generate-pat.py` (rizinorg/sigdb-source).

Python strings are embedded as `List Char` (`Str`); Python floats are embedded
as exact rationals (`ℚ`); Python dicts keyed in insertion order are embedded as
association lists; Python sets of strings are embedded as duplicate-free lists
(the script always sorts a set before using it, so element order is irrelevant).
`sys.exit(1)` and uncaught exceptions (`IndexError`) are embedded as the
`Except` error branch.
-/

namespace SigDB

/-- A Python `str`, embedded as its list of characters. -/
abbrev Str := List Char

/-- String literal helper: the character list of a Lean string literal. -/
def lit (s : String) : Str := s.data

/-- Python `str.strip()` whitespace class (ASCII whitespace). -/
def isPySpace (c : Char) : Bool :=
  c = ' ' || c = '\t' || c = '\n' || c = '\r' || c = '\x0b' || c = '\x0c'

/-- Python `line.strip()`: remove leading and trailing whitespace. -/
def pyStrip (s : Str) : Str :=
  ((s.dropWhile isPySpace).reverse.dropWhile isPySpace).reverse

/-- Python `s.split(" ")`: split on every single space, keeping empty pieces.
`"".split(" ") == [""]` and `"a  b".split(" ") == ["a", "", "b"]`. -/
def splitSp : Str → List Str
  | [] => [[]]
  | c :: rest =>
    if c = ' ' then [] :: splitSp rest
    else
      match splitSp rest with
      | [] => [[c]]
      | t :: ts => (c :: t) :: ts

/-- Python `" ".join(tokens)`. -/
def joinSp : List Str → Str
  | [] => []
  | [t] => t
  | t :: ts => t ++ ' ' :: joinSp ts

theorem splitSp_ne_nil (s : Str) : splitSp s ≠ [] := by
  induction s with
  | nil => simp [splitSp]
  | cons c rest ih =>
    simp only [splitSp]
    split
    · simp
    · cases h : splitSp rest with
      | nil => simp
      | cons t ts => simp

theorem mem_splitSp_no_space (s : Str) (t : Str) (ht : t ∈ splitSp s) : ' ' ∉ t := by
  induction s generalizing t with
  | nil => simp [splitSp] at ht; simp [ht]
  | cons c rest ih =>
    simp only [splitSp] at ht
    split at ht
    · rcases List.mem_cons.mp ht with h | h
      · simp [h]
      · exact ih t h
    · rename_i hc
      cases hsp : splitSp rest with
      | nil => exact absurd hsp (splitSp_ne_nil rest)
      | cons t0 ts =>
        rw [hsp] at ht
        rcases List.mem_cons.mp ht with h | h
        · subst h
          intro hmem
          rcases List.mem_cons.mp hmem with h | h
          · exact hc h.symm
          · exact ih t0 (by rw [hsp]; exact List.mem_cons_self _ _) h
        · exact ih t (by rw [hsp]; exact List.mem_cons_of_mem _ h)

theorem joinSp_splitSp (s : Str) : joinSp (splitSp s) = s := by
  induction s with
  | nil => simp [splitSp, joinSp]
  | cons c rest ih =>
    simp only [splitSp]
    split
    · rename_i hc
      subst hc
      cases hsp : splitSp rest with
      | nil => exact absurd hsp (splitSp_ne_nil rest)
      | cons t ts =>
        rw [hsp] at ih
        simp only [joinSp]
        cases ts with
        | nil => simp_all [joinSp]
        | cons t2 ts2 => simp_all [joinSp]
    · cases hsp : splitSp rest with
      | nil => exact absurd hsp (splitSp_ne_nil rest)
      | cons t ts =>
        rw [hsp] at ih
        cases ts with
        | nil => simp_all [joinSp]
        | cons t2 ts2 => simp_all [joinSp]

theorem splitSp_append_token (t : Str) (ht : ' ' ∉ t) (rest : Str) :
    splitSp (t ++ rest) =
      match splitSp rest with
      | [] => [t]
      | u :: us => (t ++ u) :: us := by
  induction t with
  | nil =>
    cases hsp : splitSp rest with
    | nil => exact absurd hsp (splitSp_ne_nil rest)
    | cons u us => simp [hsp]
  | cons c t ih =>
    have hc : c ≠ ' ' := fun h => ht (by simp [h])
    have ht2 : ' ' ∉ t := fun h => ht (by simp [h])
    simp only [List.cons_append, splitSp, if_neg (by simpa using hc)]
    have happ : t.append rest = t ++ rest := rfl
    rw [happ, ih ht2]
    cases hsp : splitSp rest with
    | nil => exact absurd hsp (splitSp_ne_nil rest)
    | cons u us => simp

theorem splitSp_joinSp (ts : List Str) (hne : ts ≠ [])
    (hsp : ∀ t ∈ ts, ' ' ∉ t) : splitSp (joinSp ts) = ts := by
  induction ts with
  | nil => exact absurd rfl hne
  | cons t ts ih =>
    cases ts with
    | nil =>
      simp only [joinSp]
      have := splitSp_append_token t (hsp t (by simp)) []
      simpa [splitSp] using this
    | cons t2 ts2 =>
      simp only [joinSp]
      have h1 : splitSp (' ' :: joinSp (t2 :: ts2)) = [] :: splitSp (joinSp (t2 :: ts2)) := by
        simp [splitSp]
      have h2 : splitSp (joinSp (t2 :: ts2)) = t2 :: ts2 :=
        ih (by simp) (fun u hu => hsp u (List.mem_cons_of_mem _ hu))
      have h3 := splitSp_append_token t (hsp t (by simp)) (' ' :: joinSp (t2 :: ts2))
      rw [h1, h2] at h3
      simpa using h3

/-- Python string comparison `a < b` / `a <= b`: lexicographic by code point.
`strLe a b` is `a <= b`. -/
def strLe : Str → Str → Bool
  | [], _ => true
  | _ :: _, [] => false
  | a :: as, b :: bs => if a = b then strLe as bs else decide (a < b)

theorem strLe_refl (a : Str) : strLe a a = true := by
  induction a with
  | nil => rfl
  | cons c cs ih => simp [strLe, ih]

theorem strLe_total (a b : Str) : strLe a b = true ∨ strLe b a = true := by
  induction a generalizing b with
  | nil => left; rfl
  | cons c cs ih =>
    cases b with
    | nil => right; rfl
    | cons d ds =>
      by_cases hcd : c = d
      · subst hcd
        simpa [strLe] using ih ds
      · have hdc : ¬ d = c := fun hh => hcd hh.symm
        rcases lt_or_gt_of_ne (show c ≠ d from hcd) with h | h
        · left; simp [strLe, hcd, h]
        · right; simp [strLe, hdc, h]

theorem strLe_antisymm (a b : Str) (hab : strLe a b = true) (hba : strLe b a = true) :
    a = b := by
  induction a generalizing b with
  | nil =>
    cases b with
    | nil => rfl
    | cons d ds => simp [strLe] at hba
  | cons c cs ih =>
    cases b with
    | nil => simp [strLe] at hab
    | cons d ds =>
      by_cases hcd : c = d
      · subst hcd
        simp only [strLe, if_pos rfl] at hab hba
        rw [ih ds hab hba]
      · have hdc : ¬ d = c := fun hh => hcd hh.symm
        simp only [strLe, if_neg hcd, if_neg hdc, decide_eq_true_eq] at hab hba
        exact absurd (lt_trans hab hba) (lt_irrefl c)

theorem strLe_trans (a b c : Str) (hab : strLe a b = true) (hbc : strLe b c = true) :
    strLe a c = true := by
  induction a generalizing b c with
  | nil => rfl
  | cons x xs ih =>
    cases b with
    | nil => simp [strLe] at hab
    | cons y ys =>
      cases c with
      | nil => simp [strLe] at hbc
      | cons z zs =>
        by_cases hxy : x = y <;> by_cases hyz : y = z
        · subst hxy; subst hyz
          simp only [strLe, if_pos rfl] at hab hbc ⊢
          exact ih ys zs hab hbc
        · subst hxy
          simp only [strLe, if_pos rfl, if_neg hyz] at hab hbc ⊢
          exact hbc
        · subst hyz
          simp only [strLe, if_neg hxy, if_pos rfl] at hab hbc ⊢
          exact hab
        · simp only [strLe, if_neg hxy, if_neg hyz, decide_eq_true_eq] at hab hbc
          have hxz : x < z := lt_trans hab hbc
          simp [strLe, ne_of_lt hxz, hxz]

/-- Python `list.sort()` on a list of strings. -/
def sortStr (l : List Str) : List Str := l.mergeSort strLe

theorem sortStr_perm (l : List Str) : (sortStr l).Perm l :=
  List.mergeSort_perm l strLe

theorem sortStr_sorted (l : List Str) :
    (sortStr l).Pairwise (fun a b => strLe a b = true) :=
  List.sorted_mergeSort strLe_trans (fun a b => by
    rcases strLe_total a b with h | h <;> simp [h]) l

theorem sortStr_length (l : List Str) : (sortStr l).length = l.length :=
  (sortStr_perm l).length_eq

theorem sortStr_mem (l : List Str) (s : Str) : s ∈ sortStr l ↔ s ∈ l :=
  (sortStr_perm l).mem_iff

/-- The head of the sorted list is a lower bound of the original list. -/
theorem sortStr_head_min (l : List Str) (m : Str) (rest : List Str)
    (h : sortStr l = m :: rest) : m ∈ l ∧ ∀ x ∈ l, strLe m x = true := by
  constructor
  · rw [← sortStr_mem l m, h]
    exact List.mem_cons_self m rest
  · intro x hx
    rw [← sortStr_mem l x, h] at hx
    rcases List.mem_cons.mp hx with hx | hx
    · rw [hx]; exact strLe_refl m
    · have hs := sortStr_sorted l
      rw [h] at hs
      exact (List.pairwise_cons.mp hs).1 x hx

/-!
### `difflib.SequenceMatcher(None, a, b).ratio()`

`generate-pat.py` line 63 calls `SequenceMatcher(None, a, b).ratio()`.  The
embedding below follows CPython's `difflib.py`, specialized to `isjunk=None`:
then `bjunk` is empty, so the two junk-extension loops of
`find_longest_match` never fire and the `isbjunk` tests of the two non-junk
extension loops are vacuously true.  The `autojunk` heuristic (drop "popular"
characters from `b2j` when `len(b) >= 200`) is kept.
-/

/-- Ascending list of indices `j` with `b[j] = c` (difflib's `b2j` entry
before autojunk removal). -/
def occIdx (b : Str) (c : Char) : List ℕ :=
  (b.enum.filter (fun p => p.2 = c)).map (fun p => p.1)

/-- difflib autojunk (with `isjunk=None`): when `len(b) >= 200`, characters
occurring more than `len(b) // 100 + 1` times are dropped from `b2j`. -/
def isPopular (b : Str) (c : Char) : Bool :=
  200 ≤ b.length && b.length / 100 + 1 < b.count c

/-- difflib's `b2j.get(c, [])` after autojunk removal. -/
def b2j (b : Str) (c : Char) : List ℕ :=
  if isPopular b c then [] else occIdx b c

/-- The running best match `(besti, bestj, bestsize)` of `find_longest_match`. -/
structure FlmBest where
  i : ℕ
  j : ℕ
  size : ℕ
deriving Repr, DecidableEq

/-- Inner loop of `find_longest_match` for one row `i`: walk the (ascending,
window-filtered) occurrence list `js`, building the new `j2len` row (`new`,
a total function that is `0` outside its keys, mirroring `dict.get(_, 0)`)
from the previous row `old`, updating the best match.  Python's
`k = j2len.get(j-1, 0) + 1` reads `j2len[-1]` as `0` when `j = 0`, hence the
`if j = 0` guard.  `i - k + 1` and `j - k + 1` are written `i + 1 - k` and
`j + 1 - k`; the row invariant `k ≤ i + 1` and `k ≤ j + 1` (proved below)
makes truncated subtraction agree with Python. -/
def procJ (old : ℕ → ℕ) (i : ℕ) : List ℕ → (ℕ → ℕ) → FlmBest → (ℕ → ℕ) × FlmBest
  | [], new, best => (new, best)
  | j :: js, new, best =>
    let k := (if j = 0 then 0 else old (j - 1)) + 1
    let new2 := fun x => if x = j then k else new x
    let best2 := if best.size < k then ⟨i + 1 - k, j + 1 - k, k⟩ else best
    procJ old i js new2 best2

/-- One row of `find_longest_match`'s main loop.  The Python `continue` on
`j < blo` and `break` on `j >= bhi` are a window filter, because the
occurrence lists are ascending. -/
def flmRow (a b : Str) (blo bhi : ℕ) (i : ℕ) (old : ℕ → ℕ) (best : FlmBest) :
    (ℕ → ℕ) × FlmBest :=
  let js := (b2j b (a.getD i ' ')).filter (fun j => decide (blo ≤ j) && decide (j < bhi))
  procJ old i js (fun _ => 0) best

/-- Main loop of `find_longest_match` over rows `alo, ..., ahi - 1`. -/
def flmLoop (a b : Str) (blo bhi : ℕ) : List ℕ → (ℕ → ℕ) → FlmBest → FlmBest
  | [], _, best => best
  | i :: is, old, best =>
    let r := flmRow a b blo bhi i old best
    flmLoop a b blo bhi is r.1 r.2

/-- `find_longest_match`'s left extension loop (`isjunk=None`, so the
`not isbjunk(...)` conjunct is vacuous). -/
def extendLeft (a b : Str) (alo blo : ℕ) (bi bj k : ℕ) : ℕ × ℕ × ℕ :=
  if h : alo < bi ∧ blo < bj ∧ a.getD (bi - 1) ' ' = b.getD (bj - 1) ' ' then
    extendLeft a b alo blo (bi - 1) (bj - 1) (k + 1)
  else (bi, bj, k)
termination_by bi
decreasing_by omega

/-- `find_longest_match`'s right extension loop. -/
def extendRight (a b : Str) (ahi bhi : ℕ) (bi bj k : ℕ) : ℕ :=
  if h : bi + k < ahi ∧ bj + k < bhi ∧ a.getD (bi + k) ' ' = b.getD (bj + k) ' ' then
    extendRight a b ahi bhi bi bj (k + 1)
  else k
termination_by ahi - (bi + k)
decreasing_by omega

/-- `SequenceMatcher.find_longest_match(alo, ahi, blo, bhi)` with
`isjunk=None` (the junk-extension loops are no-ops). -/
def flm (a b : Str) (alo ahi blo bhi : ℕ) : FlmBest :=
  let best0 := flmLoop a b blo bhi (List.range' alo (ahi - alo)) (fun _ => 0) ⟨alo, blo, 0⟩
  let e := extendLeft a b alo blo best0.i best0.j best0.size
  let k2 := extendRight a b ahi bhi e.1 e.2.1 e.2.2
  ⟨e.1, e.2.1, k2⟩

/-- Window soundness of a best match. -/
def BestOK (alo ahi blo bhi : ℕ) (x : FlmBest) : Prop :=
  alo ≤ x.i ∧ x.i + x.size ≤ ahi ∧ blo ≤ x.j ∧ x.j + x.size ≤ bhi

theorem procJ_ok (old : ℕ → ℕ) (i alo ahi blo bhi : ℕ)
    (hi1 : alo ≤ i) (hi2 : i < ahi)
    (hold : ∀ j, old j ≤ i - alo ∧ old j ≤ j + 1 - blo) :
    ∀ (js : List ℕ) (new : ℕ → ℕ) (best : FlmBest),
      (∀ j ∈ js, blo ≤ j ∧ j < bhi) →
      (∀ x, new x ≤ i + 1 - alo ∧ new x ≤ x + 1 - blo) →
      BestOK alo ahi blo bhi best →
      (∀ x, (procJ old i js new best).1 x ≤ i + 1 - alo ∧
            (procJ old i js new best).1 x ≤ x + 1 - blo) ∧
      BestOK alo ahi blo bhi (procJ old i js new best).2 := by
  intro js
  induction js with
  | nil =>
    intro new best _ hnew hbest
    exact ⟨hnew, hbest⟩
  | cons j js ih =>
    intro new best hjs hnew hbest
    have hj := hjs j (List.mem_cons_self _ _)
    obtain ⟨hb1, hb2, hb3, hb4⟩ := hbest
    set k0 := (if j = 0 then 0 else old (j - 1)) + 1 with hk0
    have hk1 : k0 ≤ i + 1 - alo := by
      rw [hk0]
      split
      · omega
      · have := (hold (j - 1)).1; omega
    have hk2 : k0 ≤ j + 1 - blo := by
      rw [hk0]
      split
      · omega
      · have := (hold (j - 1)).2; omega
    simp only [procJ]
    rw [← hk0]
    apply ih (fun x => if x = j then k0 else new x)
      (if best.size < k0 then ⟨i + 1 - k0, j + 1 - k0, k0⟩ else best)
      (fun j2 hj2 => hjs j2 (List.mem_cons_of_mem _ hj2))
    · intro x
      by_cases hx : x = j
      · subst hx
        simp only [if_pos rfl]
        exact ⟨hk1, hk2⟩
      · simp only [if_neg hx]; exact hnew x
    · by_cases hlt : best.size < k0
      · simp only [if_pos hlt]
        refine ⟨?_, ?_, ?_, ?_⟩
        · show alo ≤ i + 1 - k0; omega
        · show i + 1 - k0 + k0 ≤ ahi; omega
        · show blo ≤ j + 1 - k0; omega
        · show j + 1 - k0 + k0 ≤ bhi; omega
      · simp only [if_neg hlt]
        exact ⟨hb1, hb2, hb3, hb4⟩

theorem flmLoop_ok (a b : Str) (alo ahi blo bhi : ℕ) :
    ∀ (n s : ℕ) (old : ℕ → ℕ) (best : FlmBest),
      alo ≤ s → s + n ≤ ahi →
      (∀ j, old j ≤ s - alo ∧ old j ≤ j + 1 - blo) →
      BestOK alo ahi blo bhi best →
      BestOK alo ahi blo bhi (flmLoop a b blo bhi (List.range' s n) old best) := by
  intro n
  induction n with
  | zero =>
    intro s old best _ _ _ hbest
    simpa [flmLoop] using hbest
  | succ n ih =>
    intro s old best hs hsn hold hbest
    rw [List.range'_succ]
    simp only [flmLoop, flmRow]
    have hrow := procJ_ok old s alo ahi blo bhi hs (by omega) hold
      ((b2j b (a.getD s ' ')).filter (fun j => decide (blo ≤ j) && decide (j < bhi)))
      (fun _ => 0) best
      (by
        intro j hj
        have := List.of_mem_filter hj
        simp only [Bool.and_eq_true, decide_eq_true_eq] at this
        exact this)
      (fun x => ⟨Nat.zero_le _, Nat.zero_le _⟩)
      hbest
    exact ih (s + 1) _ _ (by omega) (by omega)
      (by intro j; have h1 := (hrow.1 j).1; have h2 := (hrow.1 j).2; omega) hrow.2

theorem extendLeft_ok (a b : Str) (alo blo ahi bhi : ℕ) :
    ∀ (bi bj k : ℕ), alo ≤ bi → bi + k ≤ ahi → blo ≤ bj → bj + k ≤ bhi →
      alo ≤ (extendLeft a b alo blo bi bj k).1 ∧
      (extendLeft a b alo blo bi bj k).1 + (extendLeft a b alo blo bi bj k).2.2 ≤ ahi ∧
      blo ≤ (extendLeft a b alo blo bi bj k).2.1 ∧
      (extendLeft a b alo blo bi bj k).2.1 + (extendLeft a b alo blo bi bj k).2.2 ≤ bhi := by
  intro bi
  induction bi using Nat.strong_induction_on with
  | _ bi ih =>
    intro bj k h1 h2 h3 h4
    rw [extendLeft]
    split
    · rename_i h
      exact ih (bi - 1) (by omega) (bj - 1) (k + 1) (by omega) (by omega) (by omega) (by omega)
    · exact ⟨h1, h2, h3, h4⟩

theorem extendRight_ok (a b : Str) (ahi bhi : ℕ) :
    ∀ (d bi bj k : ℕ), d = ahi - (bi + k) → bi + k ≤ ahi → bj + k ≤ bhi →
      bi + extendRight a b ahi bhi bi bj k ≤ ahi ∧
      bj + extendRight a b ahi bhi bi bj k ≤ bhi := by
  intro d
  induction d using Nat.strong_induction_on with
  | _ d ih =>
    intro bi bj k hd h2 h4
    rw [extendRight]
    split
    · rename_i h
      exact ih (ahi - (bi + (k + 1))) (by omega) bi bj (k + 1) rfl (by omega) (by omega)
    · exact ⟨h2, h4⟩

theorem flm_ok (a b : Str) (alo ahi blo bhi : ℕ) (hA : alo ≤ ahi) (hB : blo ≤ bhi) :
    BestOK alo ahi blo bhi (flm a b alo ahi blo bhi) := by
  unfold flm
  have h0 : BestOK alo ahi blo bhi ⟨alo, blo, 0⟩ :=
    ⟨le_refl _, by show alo + 0 ≤ ahi; omega, le_refl _, by show blo + 0 ≤ bhi; omega⟩
  have hloop := flmLoop_ok a b alo ahi blo bhi (ahi - alo) alo (fun _ => 0) ⟨alo, blo, 0⟩
    (le_refl _) (by omega) (fun j => ⟨Nat.zero_le _, Nat.zero_le _⟩) h0
  set best0 := flmLoop a b blo bhi (List.range' alo (ahi - alo)) (fun _ => 0) ⟨alo, blo, 0⟩
  obtain ⟨l1, l2, l3, l4⟩ := hloop
  have hext := extendLeft_ok a b alo blo ahi bhi best0.i best0.j best0.size l1 l2 l3 l4
  set e := extendLeft a b alo blo best0.i best0.j best0.size
  obtain ⟨e1, e2, e3, e4⟩ := hext
  have hr := extendRight_ok a b ahi bhi (ahi - (e.1 + e.2.2)) e.1 e.2.1 e.2.2 rfl e2 e4
  exact ⟨e1, hr.1, e3, hr.2⟩

/-- Sum of the sizes of `get_matching_blocks`: the queue-driven recursion of
difflib's `get_matching_blocks`, collapsed to the total match count used by
`ratio()` (the final sort/merge step of `get_matching_blocks` permutes and
coalesces blocks, leaving the size sum unchanged, and the `(la, lb, 0)`
sentinel contributes nothing). The `alo ≤ ahi ∧ blo ≤ bhi` guard is for
termination; every reachable call satisfies it. -/
def matchesRec (a b : Str) (alo ahi blo bhi : ℕ) : ℕ :=
  if hw : alo ≤ ahi ∧ blo ≤ bhi then
    if hk : (flm a b alo ahi blo bhi).size = 0 then 0
    else
      (if alo < (flm a b alo ahi blo bhi).i ∧ blo < (flm a b alo ahi blo bhi).j then
        matchesRec a b alo (flm a b alo ahi blo bhi).i blo (flm a b alo ahi blo bhi).j
       else 0)
      + (flm a b alo ahi blo bhi).size
      + (if (flm a b alo ahi blo bhi).i + (flm a b alo ahi blo bhi).size < ahi ∧
            (flm a b alo ahi blo bhi).j + (flm a b alo ahi blo bhi).size < bhi then
          matchesRec a b ((flm a b alo ahi blo bhi).i + (flm a b alo ahi blo bhi).size) ahi
            ((flm a b alo ahi blo bhi).j + (flm a b alo ahi blo bhi).size) bhi
         else 0)
  else 0
termination_by (ahi - alo) + (bhi - blo)
decreasing_by
  all_goals
    obtain ⟨o1, o2, o3, o4⟩ := flm_ok a b alo ahi blo bhi hw.1 hw.2
    omega

theorem matchesRec_le (a b : Str) :
    ∀ (N alo ahi blo bhi : ℕ), (ahi - alo) + (bhi - blo) ≤ N →
      matchesRec a b alo ahi blo bhi ≤ ahi - alo ∧
      matchesRec a b alo ahi blo bhi ≤ bhi - blo := by
  intro N
  induction N using Nat.strong_induction_on with
  | _ N ih =>
    intro alo ahi blo bhi hN
    rw [matchesRec]
    split
    · rename_i hw
      split
      · simp
      · rename_i hk
        obtain ⟨o1, o2, o3, o4⟩ := flm_ok a b alo ahi blo bhi hw.1 hw.2
        have h1 : (if alo < (flm a b alo ahi blo bhi).i ∧ blo < (flm a b alo ahi blo bhi).j then
              matchesRec a b alo (flm a b alo ahi blo bhi).i blo (flm a b alo ahi blo bhi).j
             else 0) ≤ (flm a b alo ahi blo bhi).i - alo ∧
            (if alo < (flm a b alo ahi blo bhi).i ∧ blo < (flm a b alo ahi blo bhi).j then
              matchesRec a b alo (flm a b alo ahi blo bhi).i blo (flm a b alo ahi blo bhi).j
             else 0) ≤ (flm a b alo ahi blo bhi).j - blo := by
          split
          · exact ih (((flm a b alo ahi blo bhi).i - alo) +
              ((flm a b alo ahi blo bhi).j - blo)) (by omega) alo _ blo _ (by omega)
          · simp
        have h2 : (if (flm a b alo ahi blo bhi).i + (flm a b alo ahi blo bhi).size < ahi ∧
              (flm a b alo ahi blo bhi).j + (flm a b alo ahi blo bhi).size < bhi then
              matchesRec a b ((flm a b alo ahi blo bhi).i + (flm a b alo ahi blo bhi).size) ahi
                ((flm a b alo ahi blo bhi).j + (flm a b alo ahi blo bhi).size) bhi
             else 0) ≤ ahi - ((flm a b alo ahi blo bhi).i + (flm a b alo ahi blo bhi).size) ∧
            (if (flm a b alo ahi blo bhi).i + (flm a b alo ahi blo bhi).size < ahi ∧
              (flm a b alo ahi blo bhi).j + (flm a b alo ahi blo bhi).size < bhi then
              matchesRec a b ((flm a b alo ahi blo bhi).i + (flm a b alo ahi blo bhi).size) ahi
                ((flm a b alo ahi blo bhi).j + (flm a b alo ahi blo bhi).size) bhi
             else 0) ≤ bhi - ((flm a b alo ahi blo bhi).j + (flm a b alo ahi blo bhi).size) := by
          split
          · exact ih ((ahi - ((flm a b alo ahi blo bhi).i + (flm a b alo ahi blo bhi).size)) +
              (bhi - ((flm a b alo ahi blo bhi).j + (flm a b alo ahi blo bhi).size)))
              (by omega) _ ahi _ bhi (by omega)
          · simp
        omega
    · simp

/-- `SequenceMatcher(None, a, b).ratio()`: `2 * M / T` where `M` is the total
size of the matching blocks and `T = len(a) + len(b)`; `1.0` when `T = 0`
(difflib's `_calculate_ratio`). -/
def ratioOf (a b : Str) : ℚ :=
  if a.length + b.length = 0 then 1
  else 2 * (matchesRec a b 0 a.length 0 b.length : ℚ) / ((a.length : ℚ) + (b.length : ℚ))

theorem ratioOf_nonneg (a b : Str) : 0 ≤ ratioOf a b := by
  unfold ratioOf
  split
  · norm_num
  · rename_i h
    apply div_nonneg
    · positivity
    · positivity

theorem ratioOf_le_one (a b : Str) : ratioOf a b ≤ 1 := by
  unfold ratioOf
  split
  · norm_num
  · rename_i h
    have hM := matchesRec_le a b (a.length + b.length) 0 a.length 0 b.length (by omega)
    have hMa : matchesRec a b 0 a.length 0 b.length ≤ a.length := by
      have := hM.1; omega
    have hMb : matchesRec a b 0 a.length 0 b.length ≤ b.length := by
      have := hM.2; omega
    have hpos : 0 < a.length + b.length := Nat.pos_of_ne_zero h
    rw [div_le_one (by exact_mod_cast hpos)]
    have h2 : (matchesRec a b 0 a.length 0 b.length : ℚ) ≤ (a.length : ℚ) := by
      exact_mod_cast hMa
    have h3 : (matchesRec a b 0 a.length 0 b.length : ℚ) ≤ (b.length : ℚ) := by
      exact_mod_cast hMb
    linarith

/-- `similarity_group(grp)` (generate-pat.py lines 56-68): sum
`SequenceMatcher(None, a, b).ratio()` over the two nested loops, skipping
pairs with equal values, and average; `1.0` when no pair had distinct values
(the code comment: "means the names in grp are the same"). -/
def similarity_group (grp : List Str) : ℚ :=
  let acc := (List.product grp grp).foldl
    (fun (ac : ℚ × ℕ) (p : Str × Str) =>
      if p.1 = p.2 then ac else (ac.1 + ratioOf p.1 p.2, ac.2 + 1))
    (0, 0)
  if acc.2 < 1 then 1 else acc.1 / (acc.2 : ℚ)

/-- Modelled from the spec words for the refinement comparison of C2: "the
average, over all ordered pairs of distinct names, of a string-similarity
ratio ... a leaf with only mutually-identical names (or a single name) scores
1.0 by convention". -/
def similaritySpec (grp : List Str) : ℚ :=
  let pairs := (List.product grp grp).filter (fun p => decide (p.1 ≠ p.2))
  if pairs.length = 0 then 1
  else (pairs.map (fun p => ratioOf p.1 p.2)).sum / (pairs.length : ℚ)

theorem similarity_fold (l : List (Str × Str)) :
    ∀ ac : ℚ × ℕ,
      l.foldl (fun (ac : ℚ × ℕ) (p : Str × Str) =>
        if p.1 = p.2 then ac else (ac.1 + ratioOf p.1 p.2, ac.2 + 1)) ac =
      (ac.1 + ((l.filter (fun p => decide (p.1 ≠ p.2))).map (fun p => ratioOf p.1 p.2)).sum,
       ac.2 + (l.filter (fun p => decide (p.1 ≠ p.2))).length) := by
  induction l with
  | nil => intro ac; simp
  | cons p l ih =>
    intro ac
    by_cases hp : p.1 = p.2
    · have hd : (decide (p.1 ≠ p.2)) = false := by simp [hp]
      rw [List.foldl_cons, if_pos hp, ih, List.filter_cons, hd]
      simp
    · have hd : (decide (p.1 ≠ p.2)) = true := by simp [hp]
      rw [List.foldl_cons, if_neg hp, ih, List.filter_cons, hd]
      simp only [if_pos rfl, if_true, ite_true, List.map_cons, List.sum_cons, List.length_cons,
        Prod.mk.injEq]
      constructor
      · ring
      · omega

theorem sum_ratioOf_bounds (l : List (Str × Str)) :
    0 ≤ (l.map (fun p => ratioOf p.1 p.2)).sum ∧
    (l.map (fun p => ratioOf p.1 p.2)).sum ≤ (l.length : ℚ) := by
  induction l with
  | nil => simp
  | cons p l ih =>
    simp only [List.map_cons, List.sum_cons, List.length_cons]
    have h1 := ratioOf_nonneg p.1 p.2
    have h2 := ratioOf_le_one p.1 p.2
    constructor
    · have := ih.1; linarith
    · have := ih.2; push_cast; linarith

/-- C2: `similarity_group` is the average, over ordered pairs of names with
distinct values, of the `SequenceMatcher` ratio; it lies in `[0, 1]`; and a
group of mutually identical names (including a singleton) scores exactly 1.
Note the average is over ordered *position* pairs whose values differ, so a
group with repeated names weights each distinct value pair by its
multiplicity, exactly as the nested loops of the code do. -/
theorem similarity_group_spec (grp : List Str) :
    similarity_group grp = similaritySpec grp ∧
    0 ≤ similarity_group grp ∧ similarity_group grp ≤ 1 ∧
    ((∀ a ∈ grp, ∀ b ∈ grp, a = b) → similarity_group grp = 1) := by
  have hfold := similarity_fold (List.product grp grp) (0, 0)
  have heq : similarity_group grp = similaritySpec grp := by
    unfold similarity_group similaritySpec
    dsimp only
    rw [hfold]
    simp only [zero_add]
    by_cases h0 : ((List.product grp grp).filter (fun p => decide (p.1 ≠ p.2))).length = 0
    · rw [h0]
      norm_num
    · rw [if_neg (by omega), if_neg h0]
  refine ⟨heq, ?_, ?_, ?_⟩
  · rw [heq]
    unfold similaritySpec
    dsimp only
    split
    · norm_num
    · rename_i hne
      apply div_nonneg
      · exact (sum_ratioOf_bounds _).1
      · positivity
  · rw [heq]
    unfold similaritySpec
    dsimp only
    split
    · norm_num
    · rename_i hne
      have hpos : 0 < ((List.product grp grp).filter (fun p => decide (p.1 ≠ p.2))).length :=
        Nat.pos_of_ne_zero hne
      rw [div_le_one (by exact_mod_cast hpos)]
      exact (sum_ratioOf_bounds _).2
  · intro hall
    rw [heq]
    unfold similaritySpec
    dsimp only
    have hfil : (List.product grp grp).filter (fun p => decide (p.1 ≠ p.2)) = [] := by
      rw [List.filter_eq_nil_iff]
      intro p hp
      have hmem : p.1 ∈ grp ∧ p.2 ∈ grp := by
        have hpp : (p.1, p.2) ∈ List.product grp grp := by simpa using hp
        simpa using List.mem_product.mp hpp
      simp [hall p.1 hmem.1 p.2 hmem.2]
    rw [hfil]
    simp

/-- Cross-checks of the `SequenceMatcher` embedding against reference values
of CPython `difflib` (`SequenceMatcher(None, a, b).ratio()`). -/
example : ratioOf (lit "abcd") (lit "bcde") = 3/4 := by with_unfolding_all decide

example : ratioOf (lit "xya") (lit "axy") = 2/3 := by with_unfolding_all decide

example : ratioOf (lit "foo") (lit "foo_impl") = 6/11 := by with_unfolding_all decide

/-- Witness for C2 at a concrete group. -/
theorem similarity_group_spec_witness :
    similarity_group [lit "foo", lit "foo"] = similaritySpec [lit "foo", lit "foo"] ∧
    0 ≤ similarity_group [lit "foo", lit "foo"] ∧
    similarity_group [lit "foo", lit "foo"] ≤ 1 ∧
    similarity_group [lit "foo", lit "foo"] = 1 := by
  have h := similarity_group_spec [lit "foo", lit "foo"]
  exact ⟨h.1, h.2.1, h.2.2.1, h.2.2.2 (by decide)⟩

/-!
### The record parser, aggregator, conflict resolver and emitter

`PatFile` state: `self.signatures` is a dict (insertion-ordered) from the
group key `"crc_len crc16"` to a dict from the prelude to a set of
canonical-with-symbol strings.  Embedded as association lists with
duplicate-free leaf lists (Python `set.add`).
-/

/-- `BAD_SYMBOLS_BEG` (generate-pat.py line 32). -/
def BAD_SYMBOLS_BEG : List Str :=
  [lit "case.0x", lit "case.default.0x", lit "fcn.", lit "loc.", lit "sub.", lit "reloc."]

/-- `BAD_SYMBOLS_ALL` (line 34).  `BAD_SYMBOLS_END` is the empty list, so its
loop in `is_bad_symbol` is a no-op and is omitted here. -/
def BAD_SYMBOLS_ALL : List Str := [lit "", lit "entry0"]

/-- `is_bad_symbol(name)` (lines 36-46). -/
def is_bad_symbol (name : Str) : Bool :=
  BAD_SYMBOLS_BEG.any (fun beg => beg.isPrefixOf name) ||
  BAD_SYMBOLS_ALL.any (fun sym => name = sym)

/-- Python `s == "." * len(s)`: `s` consists only of mask markers (true for
the empty string, as in Python). -/
def allDots (s : Str) : Bool := s = List.replicate s.length '.'

/-- Python `s.rstrip('.')`. -/
def rstripDots (s : Str) : Str := (s.reverse.dropWhile (fun c => c = '.')).reverse

/-- `calculate_stat_bytes(tokens)` (lines 70-77): percentage of non-masked
characters of `tokens[0]` (+ `tokens[6]` if present).  Python would raise
`ZeroDivisionError` on an empty pattern; `parse` only reaches this call with
a non-empty `tokens[0]` (the all-mask prelude rejection came first), and in
`ℚ` division by zero yields `0`, so the function is total here. -/
def mbytesOf (tokens : List Str) : Str :=
  tokens.getD 0 [] ++ (if 6 < tokens.length then tokens.getD 6 [] else [])

def calculate_stat_bytes (tokens : List Str) : ℚ :=
  100 - (((mbytesOf tokens).count '.' : ℚ) / ((mbytesOf tokens).length : ℚ)) * 100

/-- Postlude handling inside `PatFile.parse` (lines 131-142).  `none` models
the uncaught `IndexError`: when `self.max_postlude == 0`, `tokens.pop(6)` on
a 7-element list is followed unconditionally by
`tokens[6] = tokens[6].rstrip('.')`, which reads index 6 of a 6-element
list. -/
def postludeTrunc (maxPostlude : ℕ) (tokens : List Str) : List Str :=
  if maxPostlude = 0 then tokens.eraseIdx 6
  else if maxPostlude < (tokens.getD 6 []).length then
    tokens.set 6 ((tokens.getD 6 []).take maxPostlude)
  else tokens

def postludeStrip (t1 : List Str) : List Str :=
  t1.set 6 (rstripDots (t1.getD 6 []))

def postludeStep (maxPostlude : ℕ) (tokens : List Str) : Option (List Str) :=
  if 6 < tokens.length then
    if (postludeTrunc maxPostlude tokens).length ≤ 6 then none
    else
      if allDots ((postludeStrip (postludeTrunc maxPostlude tokens)).getD 6 []) then
        some ((postludeStrip (postludeTrunc maxPostlude tokens)).eraseIdx 6)
      else some (postludeStrip (postludeTrunc maxPostlude tokens))
  else some tokens

/-- Result of processing one input line in `PatFile.parse`. -/
inductive LineRes where
  | skip
  | sentinel
  | dropped
  | ok (key : Str) (pre : Str) (joined : Str)
  | err
deriving DecidableEq, Repr

/-- One iteration of the `for line in fp` loop of `PatFile.parse`
(lines 105-158), up to the insertion into `self.signatures`:
  * comment or empty line, or a line whose 6th field is a bad symbol:
    skipped without touching the counters;
  * the `---` sentinel: stop reading the file;
  * zero function size, all-mask prelude, or completeness below the
    threshold: counted in `n_signatures` and `n_dropped`;
  * fewer than 6 space-separated fields (`tokens[5]` raises `IndexError`),
    or the postlude `IndexError` of `postludeStep`: `err`;
  * otherwise: a record with its group key `" ".join(tokens[1:3])`, its
    prelude `tokens[0]` and its canonical-with-symbol string
    `" ".join(tokens)` (after postlude processing). -/
def parseLine (maxPostlude : ℕ) (threshold : ℚ) (rawLine : Str) : LineRes :=
  if (lit "#").isPrefixOf (pyStrip rawLine) || pyStrip rawLine = [] then .skip
  else if pyStrip rawLine = lit "---" then .sentinel
  else if (splitSp (pyStrip rawLine)).length < 6 then .err
  else if is_bad_symbol ((splitSp (pyStrip rawLine)).getD 5 []) then .skip
  else if (splitSp (pyStrip rawLine)).getD 3 [] = lit "0000" then .dropped
  else if allDots ((splitSp (pyStrip rawLine)).getD 0 []) then .dropped
  else
    match postludeStep maxPostlude (splitSp (pyStrip rawLine)) with
    | none => .err
    | some ft =>
      if calculate_stat_bytes ft < threshold then .dropped
      else
        .ok ((splitSp (pyStrip rawLine)).getD 1 [] ++ ' ' :: (splitSp (pyStrip rawLine)).getD 2 [])
          ((splitSp (pyStrip rawLine)).getD 0 []) (joinSp ft)

/-- The two-level grouping structure `self.signatures`. -/
abbrev Sigs := List (Str × List (Str × List Str))

/-- Insertion into the inner dict: `self.signatures[key][prelude].add(s)`
with set semantics, creating the prelude entry if missing. -/
def addInner (ps : List (Str × List Str)) (p s : Str) : List (Str × List Str) :=
  match ps with
  | [] => [(p, [s])]
  | (p2, leaf) :: rest =>
    if p2 = p then (p2, if s ∈ leaf then leaf else leaf ++ [s]) :: rest
    else (p2, leaf) :: addInner rest p s

/-- Insertion into `self.signatures` (lines 152-158). -/
def addLeaf (sigs : Sigs) (k p s : Str) : Sigs :=
  match sigs with
  | [] => [(k, [(p, [s])])]
  | (k2, ps) :: rest =>
    if k2 = k then (k2, addInner ps p s) :: rest
    else (k2, ps) :: addLeaf rest k p s

deriving instance DecidableEq for Except

/-- Abnormal terminations of the run: an uncaught `IndexError`, the
`sys.exit(1)` on an unresolved conflict (line 178), the `sys.exit(1)` on
zero records (lines 205-207), and the `sys.exit(1)` on a missing input
directory (lines 247-249). -/
inductive PErr where
  | indexError
  | conflictExit
  | emptyExit
  | dirExit
deriving DecidableEq, Repr

/-- Aggregation state: the grouping structure plus the running
`n_signatures` / `n_dropped` counters of `PatFile.parse`. -/
structure PState where
  sigs : Sigs
  nsig : ℕ
  ndrop : ℕ
deriving DecidableEq, Repr

def initState : PState := ⟨[], 0, 0⟩

/-- The `for line in fp` loop of `PatFile.parse` over the lines of one file. -/
def parseLines (maxPostlude : ℕ) (threshold : ℚ) : List Str → PState → Except PErr PState
  | [], st => .ok st
  | l :: ls, st =>
    match parseLine maxPostlude threshold l with
    | .skip => parseLines maxPostlude threshold ls st
    | .sentinel => .ok st
    | .err => .error .indexError
    | .dropped => parseLines maxPostlude threshold ls ⟨st.sigs, st.nsig + 1, st.ndrop + 1⟩
    | .ok k p s =>
      parseLines maxPostlude threshold ls ⟨addLeaf st.sigs k p s, st.nsig + 1, st.ndrop⟩

/-- `pat.parse(infile, ...)` over every input file (main loop, lines 278-283),
accumulating the per-input counters into totals. -/
def parseAll (maxPostlude : ℕ) (threshold : ℚ) : List (List Str) → PState → Except PErr PState
  | [], st => .ok st
  | f :: fs, st =>
    match parseLines maxPostlude threshold f st with
    | .error e => .error e
    | .ok st2 => parseAll maxPostlude threshold fs st2

/-- `s.split(" ")[5]`: the symbol field of a canonical-with-symbol string.
Every string stored in a leaf has at least 6 fields (established during
parsing), so the default is never consulted there. -/
def symOf (s : Str) : Str := (splitSp s).getD 5 []

/-- First loop of `handle_conflicts` (lines 167-179), for one leaf: an empty
leaf would crash on `[0]`; a leaf with at least 2 records aborts the run when
automatic resolution is off. -/
def leafCheck (resolve : Bool) (leaf : List Str) : Except PErr Unit :=
  if leaf.length = 0 then .error .indexError
  else if 2 ≤ leaf.length ∧ resolve = false then .error .conflictExit
  else .ok ()

def checkLeaves (resolve : Bool) : List (Str × List Str) → Except PErr Unit
  | [] => .ok ()
  | (_, leaf) :: rest =>
    match leafCheck resolve leaf with
    | .error e => .error e
    | .ok _ => checkLeaves resolve rest

def checkAll (resolve : Bool) : Sigs → Except PErr Unit
  | [] => .ok ()
  | (_, ps) :: rest =>
    match checkLeaves resolve ps with
    | .error e => .error e
    | .ok _ => checkAll resolve rest

/-- Net effect of `handle_conflicts` on one leaf, `resolve` permitting (the
two loops of lines 167-203 collapse to this per-leaf function once the
abort cases are factored into `leafCheck`): sort the set; a singleton leaf
keeps its element; a colliding leaf under the degenerate `"00 0000"` group
key is dropped; a colliding leaf whose symbol similarity is below the
threshold is dropped; otherwise the first (lexicographically smallest)
string is kept. -/
def collapseLeaf (crc : Str) (thr : ℚ) (leaf : List Str) : Option Str :=
  if (sortStr leaf).length < 2 then some ((sortStr leaf).getD 0 [])
  else if crc = lit "00 0000" then none
  else if similarity_group ((sortStr leaf).map symOf) < thr then none
  else some ((sortStr leaf).getD 0 [])

/-- `n_total` of `handle_conflicts`. -/
def nTotal (sigs : Sigs) : ℕ :=
  (sigs.map (fun kp => (kp.2.map (fun pl => pl.2.length)).sum)).sum

/-- `n_dropped` of `handle_conflicts`. -/
def nDropped (sigs : Sigs) (thr : ℚ) : ℕ :=
  (sigs.map (fun kp => (kp.2.map (fun pl =>
    if 2 ≤ pl.2.length ∧ collapseLeaf kp.1 thr pl.2 = none then pl.2.length else 0)).sum)).sum

/-- `n_resolved` of `handle_conflicts`. -/
def nResolved (sigs : Sigs) (thr : ℚ) : ℕ :=
  (sigs.map (fun kp => (kp.2.map (fun pl =>
    if 2 ≤ pl.2.length ∧ (collapseLeaf kp.1 thr pl.2).isSome then pl.2.length else 0)).sum)).sum

/-- The structure after conflict resolution: every surviving leaf holds one
canonical-with-symbol string. -/
abbrev RSigs := List (Str × List (Str × Str))

def collapseAll (thr : ℚ) (sigs : Sigs) : RSigs :=
  sigs.map (fun kp => (kp.1, kp.2.filterMap (fun pl =>
    (collapseLeaf kp.1 thr pl.2).map (fun s => (pl.1, s)))))

/-- `PatFile.handle_conflicts(resolve, threshold, ...)` (lines 161-212):
abort on the first empty-leaf crash or unresolved conflict (in structure
order), abort when no records at all were loaded, otherwise collapse every
leaf and report `(result, n_total, n_resolved, n_dropped)`. -/
def handle_conflicts (sigs : Sigs) (resolve : Bool) (thr : ℚ) :
    Except PErr (RSigs × ℕ × ℕ × ℕ) :=
  match checkAll resolve sigs with
  | .error e => .error e
  | .ok _ =>
    if nTotal sigs < 1 then .error .emptyExit
    else .ok (collapseAll thr sigs, nTotal sigs, nResolved sigs thr, nDropped sigs thr)

/-- All surviving canonical-with-symbol strings, in structure order. -/
def allValues (res : RSigs) : List Str :=
  (res.map (fun kp => kp.2.map (fun pl => pl.2))).flatten

/-- `PatFile.generate` (lines 86-97): append `"\n"` to every surviving
string, sort, and write, followed by the `---` sentinel line.  The embedded
result is the list of written lines; the file content is their
concatenation. -/
def generate (res : RSigs) : List Str :=
  sortStr ((allValues res).map (fun s => s ++ ['\n'])) ++ [lit "---\n"]

/-- The aggregation pipeline of `main` (lines 275-294): parse every input
file, resolve conflicts, and emit — `pat.generate()` runs only after
`handle_conflicts` has returned, so an aborted run produces no output
lines at all.  `maxPostludeArg` is the CLI `--max-postlude` value; the
constructor stores `max_postlude * 2` (line 83). -/
def runAll (inputs : List (List Str)) (maxPostludeArg : ℕ) (maxMasked : ℚ)
    (auto : Bool) (threshold : ℚ) : Except PErr (List Str) :=
  match parseAll (maxPostludeArg * 2) maxMasked inputs initState with
  | .error e => .error e
  | .ok st =>
    match handle_conflicts st.sigs auto threshold with
    | .error e => .error e
    | .ok r => .ok (generate r.1)

/-- Directory validation of `main` (lines 246-249): `os.path.isdir` is an
oracle boolean per requested directory; a missing directory is
`sys.exit(1)`. -/
def checkDirectories (dirsExist : List Bool) : Except PErr Unit :=
  match dirsExist with
  | [] => .ok ()
  | true :: rest => checkDirectories rest
  | false :: _ => .error .dirExit

/-!
### Parser-level claims: C5, C6, C7
-/

theorem postludeTrunc_length (maxp : ℕ) (ts : List Str) (h6 : 6 < ts.length) :
    (postludeTrunc maxp ts).length = if maxp = 0 then ts.length - 1 else ts.length := by
  unfold postludeTrunc
  by_cases hm : maxp = 0
  · rw [if_pos hm, if_pos hm, List.length_eraseIdx]
    simp [h6]
  · rw [if_neg hm, if_neg hm]
    split <;> simp

theorem postludeStep_none_iff (maxp : ℕ) (ts : List Str) :
    postludeStep maxp ts = none ↔ ts.length = 7 ∧ maxp = 0 := by
  unfold postludeStep
  by_cases h6 : 6 < ts.length
  · rw [if_pos h6]
    have hlen := postludeTrunc_length maxp ts h6
    by_cases hm : maxp = 0
    · rw [if_pos hm] at hlen
      by_cases h7 : ts.length = 7
      · rw [if_pos (by omega)]
        simp [h7, hm]
      · rw [if_neg (by omega)]
        constructor
        · intro h
          split at h <;> simp at h
        · intro h
          omega
    · rw [if_neg hm] at hlen
      rw [if_neg (by omega)]
      constructor
      · intro h
        split at h <;> simp at h
      · intro h
        exact absurd h.2 hm
  · rw [if_neg h6]
    constructor
    · intro h; simp at h
    · intro h; omega

/-- C5 (code_bug evaluation): with a nominal `--max-postlude` of `0` (stored
doubled as `0`) and a well-formed 7-field record line, `PatFile.parse` does
not fall back to the 6-field form: `tokens.pop(6)` is followed by
`tokens[6] = tokens[6].rstrip('.')`, which raises an uncaught `IndexError`
(the code's own comment at line 133 says the intent is to "drop any
postlude").  `parseLine 0` is `parseLine` with the stored `max_postlude`
value `0 * 2 = 0`. -/
theorem c5_max_postlude_zero_crash :
    parseLine (0 * 2) 50 (lit "AABB 08 1234 0010 0000 foo CCDD") = .err ∧
    (splitSp (pyStrip (lit "AABB 08 1234 0010 0000 foo CCDD"))).length = 7 := by
  constructor
  · with_unfolding_all decide
  · with_unfolding_all decide

/-- C6 counterexample: the line `"hello world"` is not a comment, not empty
and not the sentinel, and tokenizes to 2 fields; the claim says such a line
is "skipped without terminating the run", but `is_bad_symbol(tokens[5])`
raises an uncaught `IndexError` (modelled as `.err`), terminating the run. -/
theorem c6_short_line_counterexample :
    parseLine (64 * 2) 50 (lit "hello world") = .err ∧
    ¬ ((lit "#").isPrefixOf (pyStrip (lit "hello world")) = true) ∧
    pyStrip (lit "hello world") ≠ [] ∧
    pyStrip (lit "hello world") ≠ lit "---" ∧
    (splitSp (pyStrip (lit "hello world"))).length < 6 := by
  refine ⟨?_, ?_, ?_, ?_, ?_⟩ <;> with_unfolding_all decide

/-- C6 amended: for a line that is neither a comment, empty, nor the
sentinel, parsing terminates the run with an unhandled error exactly when
the line has fewer than 6 space-separated fields, or when it reaches the
postlude step with exactly 7 fields while the stored maximum postlude
length is zero; every other such line is parsed, skipped or counted as
dropped.  A missing input directory is fatal (explicit `sys.exit(1)`). -/
theorem c6_amended_line_and_directory_errors (maxp : ℕ) (thr : ℚ) (line : Str)
    (h1 : ((lit "#").isPrefixOf (pyStrip line) || decide (pyStrip line = [])) = false)
    (h2 : pyStrip line ≠ lit "---") :
    (parseLine maxp thr line = .err ↔
      ((splitSp (pyStrip line)).length < 6 ∨
        (is_bad_symbol ((splitSp (pyStrip line)).getD 5 []) = false ∧
         (splitSp (pyStrip line)).getD 3 [] ≠ lit "0000" ∧
         allDots ((splitSp (pyStrip line)).getD 0 []) = false ∧
         (splitSp (pyStrip line)).length = 7 ∧ maxp = 0))) ∧
    (∀ dirsExist : List Bool, false ∈ dirsExist →
      checkDirectories dirsExist = .error .dirExit) := by
  constructor
  · unfold parseLine
    rw [h1]
    simp only [Bool.false_eq_true, if_false]
    rw [if_neg h2]
    by_cases hlen : (splitSp (pyStrip line)).length < 6
    · rw [if_pos hlen]
      simp [hlen]
    · rw [if_neg hlen]
      by_cases hbad : is_bad_symbol ((splitSp (pyStrip line)).getD 5 []) = true
      · rw [if_pos hbad]
        constructor
        · intro h; simp at h
        · intro h
          rcases h with h | ⟨hb, _⟩
          · omega
          · rw [hbad] at hb; simp at hb
      · rw [if_neg hbad]
        by_cases hzero : (splitSp (pyStrip line)).getD 3 [] = lit "0000"
        · rw [if_pos hzero]
          constructor
          · intro h; simp at h
          · intro h
            rcases h with h | ⟨_, hz, _⟩
            · omega
            · exact absurd hzero hz
        · rw [if_neg hzero]
          by_cases hdots : allDots ((splitSp (pyStrip line)).getD 0 []) = true
          · rw [if_pos hdots]
            constructor
            · intro h; simp at h
            · intro h
              rcases h with h | ⟨_, _, hd, _⟩
              · omega
              · rw [hdots] at hd; simp at hd
          · rw [if_neg hdots]
            cases hps : postludeStep maxp (splitSp (pyStrip line)) with
            | none =>
              have hni := (postludeStep_none_iff maxp (splitSp (pyStrip line))).mp hps
              simp only [Bool.not_eq_true] at hbad hdots
              constructor
              · intro _
                exact Or.inr ⟨hbad, hzero, hdots, hni.1, hni.2⟩
              · intro _
                rfl
            | some ft =>
              dsimp only
              have hnone : ¬ ((splitSp (pyStrip line)).length = 7 ∧ maxp = 0) := by
                intro hc
                rw [(postludeStep_none_iff maxp (splitSp (pyStrip line))).mpr hc] at hps
                exact Option.noConfusion hps
              constructor
              · intro h
                split at h <;> simp at h
              · intro h
                rcases h with h | h
                · omega
                · exact absurd ⟨h.2.2.2.1, h.2.2.2.2⟩ hnone
  · intro dirsExist hfalse
    induction dirsExist with
    | nil => simp at hfalse
    | cons d rest ih =>
      cases d with
      | true =>
        have : false ∈ rest := by simpa using hfalse
        simpa [checkDirectories] using ih this
      | false => rfl

/-- Witness for C6 amended: a 2-field line errors; a well-formed 6-field
line does not; a missing directory aborts. -/
theorem c6_amended_witness :
    parseLine 128 50 (lit "hello world") = .err ∧
    ¬ (parseLine 128 50 (lit "AABB 08 1234 0010 0000 foo") = .err) ∧
    checkDirectories [true, false] = .error .dirExit := by
  have h1 := c6_amended_line_and_directory_errors 128 50 (lit "hello world")
    (by with_unfolding_all decide) (by with_unfolding_all decide)
  have h2 := c6_amended_line_and_directory_errors 128 50 (lit "AABB 08 1234 0010 0000 foo")
    (by with_unfolding_all decide) (by with_unfolding_all decide)
  refine ⟨h1.1.mpr (Or.inl (by with_unfolding_all decide)), ?_, h2.2 [true, false] (by simp)⟩
  intro hc
  rcases h2.1.mp hc with h | h
  · exact absurd h (by with_unfolding_all decide)
  · exact absurd h.2.2.2.1 (by with_unfolding_all decide)

/-- C7 counterexample: a record line rejected for its symbol
(`fcn.`-generated name) leaves both per-input counters untouched — the
`continue` at line 115 precedes `n_signatures += 1` at line 117 — so the
rejection is *not* surfaced via the total-seen/dropped counters, contrary
to the claim. -/
theorem c7_bad_symbol_not_counted :
    is_bad_symbol ((splitSp (pyStrip (lit "AABB 08 1234 0010 0000 fcn.00001234"))).getD 5 [])
      = true ∧
    parseLines 128 50 [lit "AABB 08 1234 0010 0000 fcn.00001234"] initState =
      .ok ⟨[], 0, 0⟩ := by
  constructor
  · with_unfolding_all decide
  · with_unfolding_all decide

/-- C7 amended: zero-size, fully-masked-prelude and sub-threshold
rejections increment both the total-seen and the dropped counter and never
abort the run; a record rejected for its symbol is silently skipped with
*no* counter change (and never aborts).  Stated over one line of a file:
the classification of the line and its exact effect on the parse state. -/
theorem c7_amended_rejection_counters (maxp : ℕ) (thr : ℚ) (line : Str)
    (h1 : ((lit "#").isPrefixOf (pyStrip line) || decide (pyStrip line = [])) = false)
    (h2 : pyStrip line ≠ lit "---")
    (hlen : ¬ (splitSp (pyStrip line)).length < 6) :
    (is_bad_symbol ((splitSp (pyStrip line)).getD 5 []) = true →
      parseLine maxp thr line = .skip) ∧
    (is_bad_symbol ((splitSp (pyStrip line)).getD 5 []) = false →
      ((splitSp (pyStrip line)).getD 3 [] = lit "0000" ∨
        allDots ((splitSp (pyStrip line)).getD 0 []) = true) →
      parseLine maxp thr line = .dropped) ∧
    (∀ ft, is_bad_symbol ((splitSp (pyStrip line)).getD 5 []) = false →
      (splitSp (pyStrip line)).getD 3 [] ≠ lit "0000" →
      allDots ((splitSp (pyStrip line)).getD 0 []) = false →
      postludeStep maxp (splitSp (pyStrip line)) = some ft →
      calculate_stat_bytes ft < thr →
      parseLine maxp thr line = .dropped) ∧
    (∀ ls st, parseLine maxp thr line = .skip →
      parseLines maxp thr (line :: ls) st = parseLines maxp thr ls st) ∧
    (∀ ls st, parseLine maxp thr line = .dropped →
      parseLines maxp thr (line :: ls) st =
        parseLines maxp thr ls ⟨st.sigs, st.nsig + 1, st.ndrop + 1⟩) := by
  refine ⟨?_, ?_, ?_, ?_, ?_⟩
  · intro hbad
    unfold parseLine
    rw [h1]
    simp only [Bool.false_eq_true, if_false]
    rw [if_neg h2]
    rw [if_neg hlen, if_pos hbad]
  · intro hbad hz
    unfold parseLine
    rw [h1]
    simp only [Bool.false_eq_true, if_false]
    rw [if_neg h2]
    rw [if_neg hlen, if_neg (by rw [hbad]; simp)]
    rcases hz with hz | hz
    · rw [if_pos hz]
    · by_cases hz0 : (splitSp (pyStrip line)).getD 3 [] = lit "0000"
      · rw [if_pos hz0]
      · rw [if_neg hz0, if_pos hz]
  · intro ft hbad hz hdots hps hstat
    unfold parseLine
    rw [h1]
    simp only [Bool.false_eq_true, if_false]
    rw [if_neg h2]
    rw [if_neg hlen, if_neg (by rw [hbad]; simp), if_neg hz, if_neg (by rw [hdots]; simp), hps]
    dsimp only
    rw [if_pos hstat]
  · intro ls st hskip
    conv_lhs => rw [parseLines]
    rw [hskip]
  · intro ls st hdrop
    conv_lhs => rw [parseLines]
    rw [hdrop]

/-- Witness for C7 amended at concrete lines: a bad-symbol line is skipped
with no counter change; a zero-size line bumps both counters. -/
theorem c7_amended_witness :
    parseLine 128 50 (lit "AABB 08 1234 0010 0000 fcn.00001234") = .skip ∧
    parseLine 128 50 (lit "AABB 08 1234 0000 0000 foo") = .dropped ∧
    parseLines 128 50 [lit "AABB 08 1234 0010 0000 fcn.00001234"] initState = .ok initState ∧
    parseLines 128 50 [lit "AABB 08 1234 0000 0000 foo"] initState = .ok ⟨[], 1, 1⟩ := by
  have hbad := c7_amended_rejection_counters 128 50 (lit "AABB 08 1234 0010 0000 fcn.00001234")
    (by with_unfolding_all decide) (by with_unfolding_all decide) (by with_unfolding_all decide)
  have hzero := c7_amended_rejection_counters 128 50 (lit "AABB 08 1234 0000 0000 foo")
    (by with_unfolding_all decide) (by with_unfolding_all decide) (by with_unfolding_all decide)
  have h1 : parseLine 128 50 (lit "AABB 08 1234 0010 0000 fcn.00001234") = .skip :=
    hbad.1 (by with_unfolding_all decide)
  have h2 : parseLine 128 50 (lit "AABB 08 1234 0000 0000 foo") = .dropped :=
    hzero.2.1 (by with_unfolding_all decide) (Or.inl (by with_unfolding_all decide))
  refine ⟨h1, h2, ?_, ?_⟩
  · rw [hbad.2.2.2.1 [] initState h1]
    rfl
  · rw [hzero.2.2.2.2 [] initState h2]
    rfl

/-!
### Conflict-resolution claims: C1, C3
-/

/-- Python dict lookup on an insertion-ordered association list. -/
def lookupKey {α : Type} : List (Str × α) → Str → Option α
  | [], _ => none
  | (k2, v) :: rest, k => if k2 = k then some v else lookupKey rest k

/-- `self.signatures[k][p]` (the leaf set). -/
def lookupSigs (sigs : Sigs) (k p : Str) : Option (List Str) :=
  match lookupKey sigs k with
  | none => none
  | some ps => lookupKey ps p

/-- Lookup in the collapsed structure. -/
def lookupR (res : RSigs) (k p : Str) : Option Str :=
  match lookupKey res k with
  | none => none
  | some ps => lookupKey ps p

/-- Well-formedness mirrored from Python dicts: no duplicate keys at either
level.  `parse` only ever builds such structures. -/
def KeysOK (sigs : Sigs) : Prop :=
  (sigs.map Prod.fst).Nodup ∧ ∀ k ps, (k, ps) ∈ sigs → (ps.map Prod.fst).Nodup

theorem lookupKey_eq_none {α : Type} (ps : List (Str × α)) (p : Str)
    (h : p ∉ ps.map Prod.fst) : lookupKey ps p = none := by
  induction ps with
  | nil => rfl
  | cons hd rest ih =>
    obtain ⟨p2, v⟩ := hd
    simp only [List.map_cons, List.mem_cons, not_or] at h
    have hne : p2 ≠ p := fun hc => h.1 hc.symm
    simp only [lookupKey, if_neg hne]
    exact ih h.2

theorem filterMap_collapse_fst_sub (k : Str) (thr : ℚ) (rest : List (Str × List Str))
    (q : Str)
    (hq : q ∈ (rest.filterMap (fun pl =>
      (collapseLeaf k thr pl.2).map (fun s => (pl.1, s)))).map Prod.fst) :
    q ∈ rest.map Prod.fst := by
  rw [List.mem_map] at hq
  obtain ⟨pair, hmem, hfst⟩ := hq
  rw [List.mem_filterMap] at hmem
  obtain ⟨pl, hpl, hf⟩ := hmem
  cases hcl : collapseLeaf k thr pl.2 with
  | none =>
    rw [hcl] at hf
    exact absurd hf (by simp)
  | some s =>
    rw [hcl] at hf
    injection hf with hf2
    rw [List.mem_map]
    exact ⟨pl, hpl, by rw [← hf2] at hfst; simpa using hfst⟩

theorem lookupKey_filterMap_collapse (k : Str) (thr : ℚ)
    (ps : List (Str × List Str)) (p : Str) (leaf : List Str)
    (hnd : (ps.map Prod.fst).Nodup) (hl : lookupKey ps p = some leaf) :
    lookupKey (ps.filterMap (fun pl =>
      (collapseLeaf k thr pl.2).map (fun s => (pl.1, s)))) p = collapseLeaf k thr leaf := by
  induction ps with
  | nil => exact Option.noConfusion hl
  | cons hd rest ih =>
    obtain ⟨p2, leaf2⟩ := hd
    simp only [List.map_cons, List.nodup_cons] at hnd
    by_cases hp : p2 = p
    · subst hp
      simp only [lookupKey, if_pos rfl] at hl
      obtain rfl : leaf2 = leaf := by injection hl
      rw [List.filterMap_cons]
      cases hcl : collapseLeaf k thr leaf2 with
      | none =>
        simp only [hcl, Option.map_none]
        exact lookupKey_eq_none _ _
          (fun hmem => hnd.1 (filterMap_collapse_fst_sub k thr rest p2 hmem))
      | some s =>
        simp [hcl, lookupKey]
    · simp only [lookupKey, if_neg hp] at hl
      rw [List.filterMap_cons]
      cases hcl : collapseLeaf k thr leaf2 with
      | none =>
        simp only [hcl, Option.map_none]
        exact ih hnd.2 hl
      | some s =>
        simp only [hcl, Option.map_some, lookupKey, if_neg hp]
        exact ih hnd.2 hl

theorem KeysOK_tail (hd : Str × List (Str × List Str)) (rest : Sigs)
    (hko : KeysOK (hd :: rest)) : KeysOK rest := by
  obtain ⟨h1, h2⟩ := hko
  refine ⟨?_, ?_⟩
  · simp only [List.map_cons, List.nodup_cons] at h1
    exact h1.2
  · intro k ps hmem
    exact h2 k ps (List.mem_cons_of_mem _ hmem)

theorem lookupR_collapseAll (sigs : Sigs) (thr : ℚ) (k p : Str) (leaf : List Str)
    (hko : KeysOK sigs) (hl : lookupSigs sigs k p = some leaf) :
    lookupR (collapseAll thr sigs) k p = collapseLeaf k thr leaf := by
  induction sigs with
  | nil => exact Option.noConfusion hl
  | cons hd rest ih =>
    obtain ⟨k2, ps⟩ := hd
    unfold lookupSigs at hl
    by_cases hk2 : k2 = k
    · subst hk2
      simp only [lookupKey, if_pos rfl] at hl
      unfold collapseAll lookupR
      simp only [List.map_cons, lookupKey, if_pos rfl]
      have hnd : (ps.map Prod.fst).Nodup := hko.2 k2 ps (List.mem_cons_self _ _)
      exact lookupKey_filterMap_collapse k2 thr ps p leaf hnd hl
    · simp only [lookupKey, if_neg hk2] at hl
      unfold collapseAll lookupR
      simp only [List.map_cons, lookupKey, if_neg hk2]
      have := ih (KeysOK_tail _ _ hko) hl
      unfold collapseAll lookupR at this
      exact this

theorem handle_conflicts_ok_res (sigs : Sigs) (resolve : Bool) (thr : ℚ)
    (res : RSigs) (t r d : ℕ)
    (hc : handle_conflicts sigs resolve thr = .ok (res, t, r, d)) :
    res = collapseAll thr sigs ∧ t = nTotal sigs ∧
    r = nResolved sigs thr ∧ d = nDropped sigs thr := by
  unfold handle_conflicts at hc
  cases hck : checkAll resolve sigs with
  | error e => rw [hck] at hc; exact Except.noConfusion hc
  | ok u =>
    rw [hck] at hc
    by_cases hn : nTotal sigs < 1
    · rw [if_pos hn] at hc; exact Except.noConfusion hc
    · rw [if_neg hn] at hc
      injection hc with htup
      simp only [Prod.mk.injEq] at htup
      exact ⟨htup.1.symm, htup.2.1.symm, htup.2.2.1.symm, htup.2.2.2.symm⟩

theorem handle_conflicts_eq_ok (sigs : Sigs) (resolve : Bool) (thr : ℚ)
    (hchk : checkAll resolve sigs = .ok ()) (hnt : ¬ nTotal sigs < 1) :
    handle_conflicts sigs resolve thr =
      .ok (collapseAll thr sigs, nTotal sigs, nResolved sigs thr, nDropped sigs thr) := by
  unfold handle_conflicts
  rw [hchk]
  dsimp only
  rw [if_neg hnt]

theorem sortStr_singleton (s : Str) : sortStr [s] = [s] := by
  have hlen : (sortStr [s]).length = 1 := by rw [sortStr_length]; rfl
  obtain ⟨a, ha⟩ := List.length_eq_one.mp hlen
  have : a ∈ [s] := by rw [← sortStr_mem, ha]; exact List.mem_cons_self _ _
  simp only [List.mem_singleton] at this
  rw [ha, this]

/-- C1: with automatic resolution on, a leaf holding two or more distinct
canonical-with-symbol records under a group key other than `"00 0000"`,
whose colliding symbol names score at least the caller threshold, keeps
exactly one record: the lexicographically smallest string of the colliding
set (and nothing else: any member that is `<=` it *is* it).  Determinism
across repeated runs is inherent: the embedded resolver is a pure function
of the frozen structure, mirroring the code's sort-then-take-first, which
does not depend on set iteration order. -/
theorem c1_auto_resolution_keeps_lex_min (sigs : Sigs) (thr : ℚ) (k p : Str)
    (leaf : List Str) (res : RSigs) (t r d : ℕ)
    (hko : KeysOK sigs)
    (hc : handle_conflicts sigs true thr = .ok (res, t, r, d))
    (hl : lookupSigs sigs k p = some leaf)
    (hnd : leaf.Nodup) (h2 : 2 ≤ leaf.length)
    (hk : k ≠ lit "00 0000")
    (hsim : thr ≤ similarity_group ((sortStr leaf).map symOf)) :
    ∃ m, lookupR res k p = some m ∧ m ∈ leaf ∧ (∀ x ∈ leaf, strLe m x = true) ∧
      (∀ x ∈ leaf, strLe x m = true → x = m) := by
  obtain ⟨hres, -, -, -⟩ := handle_conflicts_ok_res sigs true thr res t r d hc
  subst hres
  rw [lookupR_collapseAll sigs thr k p leaf hko hl]
  unfold collapseLeaf
  have hlen : (sortStr leaf).length = leaf.length := sortStr_length leaf
  rw [if_neg (by omega), if_neg hk, if_neg (not_lt.mpr hsim)]
  cases hs : sortStr leaf with
  | nil => rw [hs] at hlen; simp at hlen; omega
  | cons m rest =>
    have hmin := sortStr_head_min leaf m rest hs
    refine ⟨m, rfl, hmin.1, hmin.2, ?_⟩
    intro x hx hxm
    exact strLe_antisymm x m hxm (hmin.2 x hx)

/-- Concrete structure for the C1 witness. -/
def c1wLeaf : List Str :=
  [lit "AABB 08 1234 0011 0000 foo", lit "AABB 08 1234 0010 0000 foo"]

def c1wSigs : Sigs := [(lit "08 1234", [(lit "AABB", c1wLeaf)])]

/-- Witness for C1 at a concrete structure: two records sharing key
`"08 1234"` and prelude `"AABB"` with the same symbol `foo` (similarity 1),
threshold `1/2`. -/
theorem c1_auto_resolution_keeps_lex_min_witness :
    ∃ m, lookupR (collapseAll (1/2) c1wSigs) (lit "08 1234") (lit "AABB") = some m ∧
      m ∈ c1wLeaf ∧ (∀ x ∈ c1wLeaf, strLe m x = true) ∧
      (∀ x ∈ c1wLeaf, strLe x m = true → x = m) := by
  apply c1_auto_resolution_keeps_lex_min c1wSigs (1/2) (lit "08 1234") (lit "AABB") c1wLeaf
    (collapseAll (1/2) c1wSigs) (nTotal c1wSigs) (nResolved c1wSigs (1/2))
    (nDropped c1wSigs (1/2))
  · constructor
    · with_unfolding_all decide
    · intro k ps hmem
      simp only [c1wSigs, List.mem_singleton] at hmem
      injection hmem with hm1 hm2
      subst hm2
      with_unfolding_all decide
  · exact handle_conflicts_eq_ok c1wSigs true (1/2) (by with_unfolding_all decide)
      (by with_unfolding_all decide)
  · with_unfolding_all decide
  · with_unfolding_all decide
  · with_unfolding_all decide
  · with_unfolding_all decide
  · with_unfolding_all decide

/-- C3: with automatic resolution on, a colliding leaf (two or more distinct
records) under the degenerate `"00 0000"` group key is dropped entirely,
whatever the similarity threshold or the symbol names (this conjunct holds
for *every* `thr`, so the similarity heuristic cannot influence it); and a
leaf with exactly one record is kept untouched, as that very record. -/
theorem c3_degenerate_drop_singleton_untouched (sigs : Sigs) (thr : ℚ) (k p : Str)
    (leaf : List Str) (res : RSigs) (t r d : ℕ)
    (hko : KeysOK sigs)
    (hc : handle_conflicts sigs true thr = .ok (res, t, r, d))
    (hl : lookupSigs sigs k p = some leaf) :
    (k = lit "00 0000" → leaf.Nodup → 2 ≤ leaf.length → lookupR res k p = none) ∧
    (∀ s, leaf = [s] → lookupR res k p = some s) := by
  obtain ⟨hres, -, -, -⟩ := handle_conflicts_ok_res sigs true thr res t r d hc
  subst hres
  rw [lookupR_collapseAll sigs thr k p leaf hko hl]
  constructor
  · intro hk _ h2
    unfold collapseLeaf
    have hlen : (sortStr leaf).length = leaf.length := sortStr_length leaf
    rw [if_neg (by omega), if_pos hk]
  · intro s hs
    subst hs
    unfold collapseLeaf
    rw [sortStr_singleton]
    rw [if_pos (by simp)]
    rfl

/-- Concrete structures for the C3 witness. -/
def c3wLeafD : List Str :=
  [lit "AABB 00 0000 0010 0000 foo", lit "AABB 00 0000 0011 0000 bar"]

def c3wSigsD : Sigs := [(lit "00 0000", [(lit "AABB", c3wLeafD)])]

def c3wSigsS : Sigs :=
  [(lit "08 1234", [(lit "AABB", [lit "AABB 08 1234 0010 0000 foo"])])]

/-- Witness for C3: a degenerate-key colliding leaf with very dissimilar
names is dropped; a singleton leaf survives as itself. -/
theorem c3_degenerate_drop_singleton_untouched_witness :
    lookupR (collapseAll (1/100) c3wSigsD) (lit "00 0000") (lit "AABB") = none ∧
    lookupR (collapseAll (1/100) c3wSigsS) (lit "08 1234") (lit "AABB")
      = some (lit "AABB 08 1234 0010 0000 foo") := by
  constructor
  · refine (c3_degenerate_drop_singleton_untouched c3wSigsD (1/100)
      (lit "00 0000") (lit "AABB") c3wLeafD (collapseAll (1/100) c3wSigsD)
      (nTotal c3wSigsD) (nResolved c3wSigsD (1/100)) (nDropped c3wSigsD (1/100))
      ?_ ?_ ?_).1 rfl ?_ ?_
    · constructor
      · with_unfolding_all decide
      · intro k ps hmem
        simp only [c3wSigsD, List.mem_singleton] at hmem
        injection hmem with hm1 hm2
        subst hm2
        with_unfolding_all decide
    · exact handle_conflicts_eq_ok c3wSigsD true (1/100) (by with_unfolding_all decide)
        (by with_unfolding_all decide)
    · with_unfolding_all decide
    · with_unfolding_all decide
    · with_unfolding_all decide
  · refine (c3_degenerate_drop_singleton_untouched c3wSigsS (1/100)
      (lit "08 1234") (lit "AABB") [lit "AABB 08 1234 0010 0000 foo"]
      (collapseAll (1/100) c3wSigsS) (nTotal c3wSigsS) (nResolved c3wSigsS (1/100))
      (nDropped c3wSigsS (1/100)) ?_ ?_ ?_).2 (lit "AABB 08 1234 0010 0000 foo") rfl
    · constructor
      · with_unfolding_all decide
      · intro k ps hmem
        simp only [c3wSigsS, List.mem_singleton] at hmem
        injection hmem with hm1 hm2
        subst hm2
        with_unfolding_all decide
    · exact handle_conflicts_eq_ok c3wSigsS true (1/100) (by with_unfolding_all decide)
        (by with_unfolding_all decide)
    · with_unfolding_all decide

/-!
### Structural invariants of the grouping structure
-/

/-- Every string stored in every leaf satisfies `P key prelude string`. -/
def SigsInv (P : Str → Str → Str → Prop) (sigs : Sigs) : Prop :=
  ∀ k ps, (k, ps) ∈ sigs → ∀ p leaf, (p, leaf) ∈ ps → ∀ s ∈ leaf, P k p s

/-- The dict/set shape maintained by `parse`: no duplicate keys at either
level, and every leaf set is non-empty and duplicate-free. -/
def SigsWF (sigs : Sigs) : Prop :=
  (sigs.map Prod.fst).Nodup ∧
  ∀ k ps, (k, ps) ∈ sigs →
    (ps.map Prod.fst).Nodup ∧ ∀ p leaf, (p, leaf) ∈ ps → leaf ≠ [] ∧ leaf.Nodup

theorem SigsWF_KeysOK (sigs : Sigs) (h : SigsWF sigs) : KeysOK sigs :=
  ⟨h.1, fun k ps hm => (h.2 k ps hm).1⟩

theorem addInner_mem (ps : List (Str × List Str)) (p s p2 : Str) (leaf2 : List Str)
    (hm : (p2, leaf2) ∈ addInner ps p s) :
    (p2, leaf2) ∈ ps ∨
    (p2 = p ∧ ∃ leaf, (p2, leaf) ∈ ps ∧
      leaf2 = (if s ∈ leaf then leaf else leaf ++ [s])) ∨
    (p2 = p ∧ leaf2 = [s]) := by
  induction ps with
  | nil =>
    simp only [addInner, List.mem_singleton] at hm
    injection hm with h1 h2
    subst h1; subst h2
    exact Or.inr (Or.inr ⟨rfl, rfl⟩)
  | cons hd rest ih =>
    obtain ⟨p3, leaf3⟩ := hd
    by_cases hp : p3 = p
    · subst hp
      simp only [addInner, if_pos rfl] at hm
      rcases List.mem_cons.mp hm with h | h
      · injection h with h1 h2
        subst h1
        exact Or.inr (Or.inl ⟨rfl, leaf3, List.mem_cons_self _ _, h2⟩)
      · exact Or.inl (List.mem_cons_of_mem _ h)
    · simp only [addInner, if_neg hp] at hm
      rcases List.mem_cons.mp hm with h | h
      · exact Or.inl (by rw [h]; exact List.mem_cons_self _ _)
      · rcases ih h with h2 | h2 | h2
        · exact Or.inl (List.mem_cons_of_mem _ h2)
        · exact Or.inr (Or.inl ⟨h2.1, h2.2.choose,
            List.mem_cons_of_mem _ h2.2.choose_spec.1, h2.2.choose_spec.2⟩)
        · exact Or.inr (Or.inr h2)

theorem addLeaf_mem (sigs : Sigs) (k p s k2 : Str) (ps2 : List (Str × List Str))
    (hm : (k2, ps2) ∈ addLeaf sigs k p s) :
    (k2, ps2) ∈ sigs ∨
    (k2 = k ∧ ∃ ps, (k2, ps) ∈ sigs ∧ ps2 = addInner ps p s) ∨
    (k2 = k ∧ ps2 = [(p, [s])]) := by
  induction sigs with
  | nil =>
    simp only [addLeaf, List.mem_singleton] at hm
    injection hm with h1 h2
    subst h1; subst h2
    exact Or.inr (Or.inr ⟨rfl, rfl⟩)
  | cons hd rest ih =>
    obtain ⟨k3, ps3⟩ := hd
    by_cases hk : k3 = k
    · subst hk
      simp only [addLeaf, if_pos rfl] at hm
      rcases List.mem_cons.mp hm with h | h
      · injection h with h1 h2
        subst h1
        exact Or.inr (Or.inl ⟨rfl, ps3, List.mem_cons_self _ _, h2⟩)
      · exact Or.inl (List.mem_cons_of_mem _ h)
    · simp only [addLeaf, if_neg hk] at hm
      rcases List.mem_cons.mp hm with h | h
      · exact Or.inl (by rw [h]; exact List.mem_cons_self _ _)
      · rcases ih h with h2 | h2 | h2
        · exact Or.inl (List.mem_cons_of_mem _ h2)
        · exact Or.inr (Or.inl ⟨h2.1, h2.2.choose,
            List.mem_cons_of_mem _ h2.2.choose_spec.1, h2.2.choose_spec.2⟩)
        · exact Or.inr (Or.inr h2)

theorem addLeaf_inv (P : Str → Str → Str → Prop) (sigs : Sigs) (k p s : Str)
    (hinv : SigsInv P sigs) (hP : P k p s) : SigsInv P (addLeaf sigs k p s) := by
  intro k2 ps2 hm p2 leaf2 hm2 x hx
  rcases addLeaf_mem sigs k p s k2 ps2 hm with h | h | h
  · exact hinv k2 ps2 h p2 leaf2 hm2 x hx
  · obtain ⟨rfl, ps, hps, rfl⟩ := h
    rcases addInner_mem ps p s p2 leaf2 hm2 with h2 | h2 | h2
    · exact hinv k2 ps hps p2 leaf2 h2 x hx
    · obtain ⟨rfl, leaf, hleaf, rfl⟩ := h2
      by_cases hsl : s ∈ leaf
      · rw [if_pos hsl] at hx
        exact hinv k2 ps hps p2 leaf hleaf x hx
      · rw [if_neg hsl] at hx
        rcases List.mem_append.mp hx with h3 | h3
        · exact hinv k2 ps hps p2 leaf hleaf x h3
        · rw [List.mem_singleton.mp h3]
          exact hP
    · obtain ⟨rfl, rfl⟩ := h2
      rw [List.mem_singleton.mp hx]
      exact hP
  · obtain ⟨rfl, rfl⟩ := h
    simp only [List.mem_singleton] at hm2
    injection hm2 with h1 h2
    subst h1; subst h2
    rw [List.mem_singleton.mp hx]
    exact hP

theorem addInner_fsts (ps : List (Str × List Str)) (p s : Str) :
    (addInner ps p s).map Prod.fst =
      if p ∈ ps.map Prod.fst then ps.map Prod.fst else ps.map Prod.fst ++ [p] := by
  induction ps with
  | nil => simp [addInner]
  | cons hd rest ih =>
    obtain ⟨p2, leaf2⟩ := hd
    by_cases hp : p2 = p
    · subst hp
      simp only [addInner, if_pos rfl, List.map_cons]
      simp
    · simp only [addInner, if_neg hp, List.map_cons, ih]
      have hne : ¬ p = p2 := fun h => hp h.symm
      by_cases hmem : p ∈ rest.map Prod.fst
      · rw [if_pos hmem, if_pos (by simp [hmem])]
      · rw [if_neg hmem, if_neg (by simp [hne, hmem])]
        simp

theorem addLeaf_fsts (sigs : Sigs) (k p s : Str) :
    (addLeaf sigs k p s).map Prod.fst =
      if k ∈ sigs.map Prod.fst then sigs.map Prod.fst else sigs.map Prod.fst ++ [k] := by
  induction sigs with
  | nil => simp [addLeaf]
  | cons hd rest ih =>
    obtain ⟨k2, ps2⟩ := hd
    by_cases hk : k2 = k
    · subst hk
      simp only [addLeaf, if_pos rfl, List.map_cons]
      simp
    · simp only [addLeaf, if_neg hk, List.map_cons, ih]
      have hne : ¬ k = k2 := fun h => hk h.symm
      by_cases hmem : k ∈ rest.map Prod.fst
      · rw [if_pos hmem, if_pos (by simp [hmem])]
      · rw [if_neg hmem, if_neg (by simp [hne, hmem])]
        simp

theorem addLeaf_wf (sigs : Sigs) (k p s : Str) (hwf : SigsWF sigs) :
    SigsWF (addLeaf sigs k p s) := by
  constructor
  · rw [addLeaf_fsts]
    split
    · exact hwf.1
    · simp only [List.nodup_append, List.nodup_singleton]
      rename_i hnm
      exact ⟨hwf.1, trivial, by simpa [List.disjoint_right] using hnm⟩
  · intro k2 ps2 hm
    rcases addLeaf_mem sigs k p s k2 ps2 hm with h | h | h
    · exact hwf.2 k2 ps2 h
    · obtain ⟨rfl, ps, hps, rfl⟩ := h
      obtain ⟨hps1, hps2⟩ := hwf.2 k2 ps hps
      constructor
      · rw [addInner_fsts]
        split
        · exact hps1
        · simp only [List.nodup_append, List.nodup_singleton]
          rename_i hnm
          exact ⟨hps1, trivial, by simpa [List.disjoint_right] using hnm⟩
      · intro p2 leaf2 hm2
        rcases addInner_mem ps p s p2 leaf2 hm2 with h2 | h2 | h2
        · exact hps2 p2 leaf2 h2
        · obtain ⟨rfl, leaf, hleaf, rfl⟩ := h2
          obtain ⟨hl1, hl2⟩ := hps2 p2 leaf hleaf
          by_cases hsl : s ∈ leaf
          · rw [if_pos hsl]
            exact ⟨hl1, hl2⟩
          · rw [if_neg hsl]
            refine ⟨by simp, ?_⟩
            simp [List.nodup_append, hl2, hsl]
        · obtain ⟨rfl, rfl⟩ := h2
          exact ⟨by simp, by simp⟩
    · obtain ⟨rfl, rfl⟩ := h
      refine ⟨by simp, ?_⟩
      intro p2 leaf2 hm2
      simp only [List.mem_singleton] at hm2
      injection hm2 with h1 h2
      subst h2
      exact ⟨by simp, by simp⟩

/-- Invariant + well-formedness preservation through the line loop of
`PatFile.parse`. -/
theorem parseLines_pres (P : Str → Str → Str → Prop) (maxp : ℕ) (thr : ℚ)
    (hP : ∀ line k p s, parseLine maxp thr line = .ok k p s → P k p s) :
    ∀ (ls : List Str) (st st2 : PState),
      parseLines maxp thr ls st = .ok st2 →
      SigsInv P st.sigs → SigsWF st.sigs →
      SigsInv P st2.sigs ∧ SigsWF st2.sigs := by
  intro ls
  induction ls with
  | nil =>
    intro st st2 h hi hw
    injection h with h2
    rw [← h2]
    exact ⟨hi, hw⟩
  | cons l ls ih =>
    intro st st2 h hi hw
    rw [parseLines] at h
    cases hl : parseLine maxp thr l with
    | skip => rw [hl] at h; exact ih st st2 h hi hw
    | sentinel =>
      rw [hl] at h
      injection h with h2
      rw [← h2]
      exact ⟨hi, hw⟩
    | err => rw [hl] at h; exact Except.noConfusion h
    | dropped => rw [hl] at h; exact ih _ st2 h hi hw
    | ok k p s =>
      rw [hl] at h
      exact ih _ st2 h (addLeaf_inv P st.sigs k p s hi (hP l k p s hl))
        (addLeaf_wf st.sigs k p s hw)

/-- Invariant + well-formedness preservation through the whole input set. -/
theorem parseAll_pres (P : Str → Str → Str → Prop) (maxp : ℕ) (thr : ℚ)
    (hP : ∀ line k p s, parseLine maxp thr line = .ok k p s → P k p s) :
    ∀ (inputs : List (List Str)) (st st2 : PState),
      parseAll maxp thr inputs st = .ok st2 →
      SigsInv P st.sigs → SigsWF st.sigs →
      SigsInv P st2.sigs ∧ SigsWF st2.sigs := by
  intro inputs
  induction inputs with
  | nil =>
    intro st st2 h hi hw
    injection h with h2
    rw [← h2]
    exact ⟨hi, hw⟩
  | cons f fs ih =>
    intro st st2 h hi hw
    rw [parseAll] at h
    cases hf : parseLines maxp thr f st with
    | error e => rw [hf] at h; exact Except.noConfusion h
    | ok stm =>
      rw [hf] at h
      obtain ⟨hi2, hw2⟩ := parseLines_pres P maxp thr hP f st stm hf hi hw
      exact ih stm st2 h hi2 hw2

theorem parseAll_init_pres (P : Str → Str → Str → Prop) (maxp : ℕ) (thr : ℚ)
    (hP : ∀ line k p s, parseLine maxp thr line = .ok k p s → P k p s)
    (inputs : List (List Str)) (st : PState)
    (h : parseAll maxp thr inputs initState = .ok st) :
    SigsInv P st.sigs ∧ SigsWF st.sigs := by
  apply parseAll_pres P maxp thr hP inputs initState st h
  · intro k ps hm
    exact absurd hm (List.not_mem_nil _)
  · exact ⟨List.nodup_nil, fun k ps hm => absurd hm (List.not_mem_nil _)⟩

theorem rstripDots_subset (t : Str) : ∀ c ∈ rstripDots t, c ∈ t := by
  intro c hc
  unfold rstripDots at hc
  rw [List.mem_reverse] at hc
  have h2 := (List.dropWhile_sublist _).subset hc
  rwa [List.mem_reverse] at h2

theorem getD_mem_of_lt (l : List Str) (i : ℕ) (hi : i < l.length) :
    l.getD i [] ∈ l := by
  rw [List.getD_eq_getElem?_getD, List.getElem?_eq_getElem hi]
  exact List.getElem_mem hi

theorem postludeTrunc_getD_lt6 (maxp : ℕ) (tokens : List Str) (i : ℕ) (hi : i < 6) :
    (postludeTrunc maxp tokens).getD i [] = tokens.getD i [] := by
  unfold postludeTrunc
  split
  · rw [List.getD_eq_getElem?_getD, List.getD_eq_getElem?_getD, List.getElem?_eraseIdx,
      if_pos (by omega)]
  · split
    · simp only [List.getD_eq_getElem?_getD]
      rw [List.getElem?_set_ne (by omega)]
    · rfl

theorem postludeTrunc_chars (maxp : ℕ) (tokens : List Str) (h6 : 6 < tokens.length) :
    ∀ t ∈ postludeTrunc maxp tokens, ∀ c ∈ t, ∃ u ∈ tokens, c ∈ u := by
  intro t ht c hc
  unfold postludeTrunc at ht
  split at ht
  · exact ⟨t, List.eraseIdx_subset _ _ ht, hc⟩
  · split at ht
    · rcases List.mem_or_eq_of_mem_set ht with h | h
      · exact ⟨t, h, hc⟩
      · subst h
        exact ⟨tokens.getD 6 [], getD_mem_of_lt tokens 6 h6, List.take_subset _ _ hc⟩
    · exact ⟨t, ht, hc⟩

theorem postludeStrip_getD_lt6 (t1 : List Str) (i : ℕ) (hi : i < 6) :
    (postludeStrip t1).getD i [] = t1.getD i [] := by
  unfold postludeStrip
  simp only [List.getD_eq_getElem?_getD]
  rw [List.getElem?_set_ne (by omega)]

theorem postludeStrip_chars (t1 : List Str) (h6 : 6 < t1.length) :
    ∀ t ∈ postludeStrip t1, ∀ c ∈ t, ∃ u ∈ t1, c ∈ u := by
  intro t ht c hc
  unfold postludeStrip at ht
  rcases List.mem_or_eq_of_mem_set ht with h | h
  · exact ⟨t, h, hc⟩
  · subst h
    exact ⟨t1.getD 6 [], getD_mem_of_lt t1 6 h6, rstripDots_subset _ c hc⟩

theorem eraseIdx6_getD_lt6 (l : List Str) (i : ℕ) (hi : i < 6) :
    (l.eraseIdx 6).getD i [] = l.getD i [] := by
  rw [List.getD_eq_getElem?_getD, List.getD_eq_getElem?_getD, List.getElem?_eraseIdx,
    if_pos (by omega)]

theorem postludeStep_some_facts (maxp : ℕ) (tokens ft : List Str)
    (h6 : 6 ≤ tokens.length) (h : postludeStep maxp tokens = some ft) :
    6 ≤ ft.length ∧ (∀ i, i < 6 → ft.getD i [] = tokens.getD i []) ∧
    (∀ t ∈ ft, ∀ c ∈ t, ∃ u ∈ tokens, c ∈ u) := by
  unfold postludeStep at h
  by_cases hgt : 6 < tokens.length
  · rw [if_pos hgt] at h
    by_cases hshort : (postludeTrunc maxp tokens).length ≤ 6
    · rw [if_pos hshort] at h
      exact Option.noConfusion h
    · rw [if_neg hshort] at h
      have hlen1 : 6 < (postludeTrunc maxp tokens).length := by omega
      have hlen2 : (postludeStrip (postludeTrunc maxp tokens)).length =
          (postludeTrunc maxp tokens).length := by
        unfold postludeStrip
        simp
      split at h
      · injection h with h2
        subst h2
        refine ⟨?_, ?_, ?_⟩
        · rw [List.length_eraseIdx]
          split <;> omega
        · intro i hi
          rw [eraseIdx6_getD_lt6 _ i hi, postludeStrip_getD_lt6 _ i hi,
            postludeTrunc_getD_lt6 maxp tokens i hi]
        · intro t ht c hc
          have h3 := List.eraseIdx_subset _ 6 ht
          obtain ⟨u, hu, hcu⟩ := postludeStrip_chars _ hlen1 t h3 c hc
          exact postludeTrunc_chars maxp tokens hgt u hu c hcu
      · injection h with h2
        subst h2
        refine ⟨by omega, ?_, ?_⟩
        · intro i hi
          rw [postludeStrip_getD_lt6 _ i hi, postludeTrunc_getD_lt6 maxp tokens i hi]
        · intro t ht c hc
          obtain ⟨u, hu, hcu⟩ := postludeStrip_chars _ hlen1 t ht c hc
          exact postludeTrunc_chars maxp tokens hgt u hu c hcu
  · rw [if_neg hgt] at h
    injection h with h2
    subst h2
    exact ⟨h6, fun i hi => rfl, fun t ht c hc => ⟨t, ht, hc⟩⟩

/-- What `parse` guarantees about every record it inserts: the stored
canonical-with-symbol string splits back into its final token list, whose
fields 0-2 are exactly the leaf's prelude and group-key fields, whose symbol
passed the filter, whose function size is non-zero, whose prelude carries at
least one real byte, and whose completeness meets the threshold. -/
def GoodRec (thr : ℚ) (k p s : Str) : Prop :=
  6 ≤ (splitSp s).length ∧
  p = (splitSp s).getD 0 [] ∧
  k = (splitSp s).getD 1 [] ++ ' ' :: (splitSp s).getD 2 [] ∧
  is_bad_symbol ((splitSp s).getD 5 []) = false ∧
  (splitSp s).getD 3 [] ≠ lit "0000" ∧
  allDots ((splitSp s).getD 0 []) = false ∧
  thr ≤ calculate_stat_bytes (splitSp s)

theorem parseLine_ok_good (maxp : ℕ) (thr : ℚ) (line k p s : Str)
    (h : parseLine maxp thr line = .ok k p s) : GoodRec thr k p s := by
  unfold parseLine at h
  split at h
  · exact LineRes.noConfusion h
  split at h
  · exact LineRes.noConfusion h
  split at h
  · exact LineRes.noConfusion h
  split at h
  · exact LineRes.noConfusion h
  split at h
  · exact LineRes.noConfusion h
  split at h
  · exact LineRes.noConfusion h
  rename_i hlen hbad hzero hdots
  split at h
  · exact LineRes.noConfusion h
  rename_i ft hps
  split at h
  · exact LineRes.noConfusion h
  rename_i hstat
  injection h with hk hp hs
  have h6 : 6 ≤ (splitSp (pyStrip line)).length := by omega
  obtain ⟨hf1, hf2, hf3⟩ := postludeStep_some_facts maxp (splitSp (pyStrip line)) ft h6 hps
  have hfsp : ∀ t ∈ ft, ' ' ∉ t := by
    intro t ht hsp2
    obtain ⟨u, hu, hcu⟩ := hf3 t ht ' ' hsp2
    exact mem_splitSp_no_space (pyStrip line) u hu hcu
  have hss : splitSp s = ft := by
    rw [← hs]
    exact splitSp_joinSp ft (by intro hnil; rw [hnil] at hf1; simp at hf1) hfsp
  refine ⟨by rw [hss]; exact hf1, ?_, ?_, ?_, ?_, ?_, ?_⟩
  · rw [hss, hf2 0 (by omega), hp]
  · rw [hss, hf2 1 (by omega), hf2 2 (by omega), hk]
  · rw [hss, hf2 5 (by omega)]
    simpa using hbad
  · rw [hss, hf2 3 (by omega)]
    exact hzero
  · rw [hss, hf2 0 (by omega)]
    simpa using hdots
  · rw [hss]
    exact not_lt.mp hstat

/-!
### Emitter membership and the completeness gate: C4
-/

theorem lookupKey_mem {α : Type} (l : List (Str × α)) (k : Str) (v : α)
    (h : lookupKey l k = some v) : (k, v) ∈ l := by
  induction l with
  | nil => exact Option.noConfusion h
  | cons hd rest ih =>
    obtain ⟨k2, v2⟩ := hd
    by_cases hk : k2 = k
    · subst hk
      simp only [lookupKey, if_pos rfl] at h
      injection h with h2
      rw [h2]
      exact List.mem_cons_self _ _
    · simp only [lookupKey, if_neg hk] at h
      exact List.mem_cons_of_mem _ (ih h)

theorem allValues_mem (res : RSigs) (s : Str) :
    s ∈ allValues res ↔ ∃ k ps p, (k, ps) ∈ res ∧ (p, s) ∈ ps := by
  unfold allValues
  rw [List.mem_flatten]
  constructor
  · rintro ⟨l, hl, hs⟩
    rw [List.mem_map] at hl
    obtain ⟨kp, hkp, rfl⟩ := hl
    rw [List.mem_map] at hs
    obtain ⟨pl, hpl, rfl⟩ := hs
    exact ⟨kp.1, kp.2, pl.1, by simpa using hkp, by simpa using hpl⟩
  · rintro ⟨k, ps, p, hkp, hpl⟩
    refine ⟨ps.map (fun pl => pl.2), ?_, ?_⟩
    · rw [List.mem_map]; exact ⟨(k, ps), hkp, rfl⟩
    · rw [List.mem_map]; exact ⟨(p, s), hpl, rfl⟩

theorem collapseAll_mem (thr : ℚ) (sigs : Sigs) (k : Str) (ps2 : List (Str × Str))
    (h : (k, ps2) ∈ collapseAll thr sigs) :
    ∃ ps, (k, ps) ∈ sigs ∧ ps2 = ps.filterMap (fun pl =>
      (collapseLeaf k thr pl.2).map (fun s => (pl.1, s))) := by
  unfold collapseAll at h
  rw [List.mem_map] at h
  obtain ⟨kp, hkp, heq⟩ := h
  injection heq with h1 h2
  subst h1
  exact ⟨kp.2, by simpa using hkp, h2.symm⟩

theorem filterMap_collapse_mem (k : Str) (thr : ℚ) (ps : List (Str × List Str))
    (p s : Str)
    (h : (p, s) ∈ ps.filterMap (fun pl =>
      (collapseLeaf k thr pl.2).map (fun s => (pl.1, s)))) :
    ∃ leaf, (p, leaf) ∈ ps ∧ collapseLeaf k thr leaf = some s := by
  rw [List.mem_filterMap] at h
  obtain ⟨pl, hpl, hf⟩ := h
  cases hcl : collapseLeaf k thr pl.2 with
  | none => rw [hcl] at hf; exact absurd hf (by simp)
  | some s2 =>
    rw [hcl] at hf
    injection hf with hf2
    injection hf2 with ha hb
    refine ⟨pl.2, ?_, ?_⟩
    · have hpl2 : (p, pl.2) = pl := by rw [← ha]
      rw [hpl2]
      exact hpl
    · rw [hb] at hcl
      exact hcl

theorem collapseLeaf_some_mem (k : Str) (thr : ℚ) (leaf : List Str) (s : Str)
    (hne : leaf ≠ []) (h : collapseLeaf k thr leaf = some s) : s ∈ leaf := by
  have hlen : (sortStr leaf).length = leaf.length := sortStr_length leaf
  cases hs2 : sortStr leaf with
  | nil =>
    rw [hs2] at hlen
    exact absurd (List.length_eq_zero.mp hlen.symm) hne
  | cons m rest =>
    have hm : m ∈ leaf := (sortStr_head_min leaf m rest hs2).1
    unfold collapseLeaf at h
    rw [hs2] at h
    split at h
    · injection h with h2
      rw [← h2]
      exact hm
    · split at h
      · exact Option.noConfusion h
      · split at h
        · exact Option.noConfusion h
        · injection h with h2
          rw [← h2]
          exact hm

theorem generate_mem (res : RSigs) (l : Str) (h : l ∈ generate res) :
    l = lit "---\n" ∨ ∃ s, s ∈ allValues res ∧ l = s ++ ['\n'] := by
  unfold generate at h
  rcases List.mem_append.mp h with h2 | h2
  · right
    rw [sortStr_mem] at h2
    rw [List.mem_map] at h2
    obtain ⟨s, hs, rfl⟩ := h2
    exact ⟨s, hs, rfl⟩
  · left
    simpa using h2

theorem runAll_ok_inv (inputs : List (List Str)) (maxpArg : ℕ) (thrM : ℚ)
    (auto : Bool) (thrS : ℚ) (out : List Str)
    (h : runAll inputs maxpArg thrM auto thrS = .ok out) :
    ∃ st res t r d, parseAll (maxpArg * 2) thrM inputs initState = .ok st ∧
      handle_conflicts st.sigs auto thrS = .ok (res, t, r, d) ∧ out = generate res := by
  unfold runAll at h
  cases hp : parseAll (maxpArg * 2) thrM inputs initState with
  | error e => rw [hp] at h; exact Except.noConfusion h
  | ok st =>
    rw [hp] at h
    dsimp only at h
    cases hc : handle_conflicts st.sigs auto thrS with
    | error e => rw [hc] at h; exact Except.noConfusion h
    | ok rr =>
      rw [hc] at h
      dsimp only at h
      injection h with h2
      exact ⟨st, rr.1, rr.2.1, rr.2.2.1, rr.2.2.2, rfl, hc, h2.symm⟩

/-- The strings appearing in the emitted output are exactly strings of some
leaf of the parsed structure (sentinel aside), hence inherit any parse-time
leaf invariant. -/
theorem emitted_good (P : Str → Str → Str → Prop) (maxp : ℕ) (thrM : ℚ)
    (hP : ∀ line k p s, parseLine maxp thrM line = .ok k p s → P k p s)
    (inputs : List (List Str)) (st : PState) (thrS : ℚ) (s : Str)
    (hpa : parseAll maxp thrM inputs initState = .ok st)
    (hs : s ∈ allValues (collapseAll thrS st.sigs)) :
    ∃ k p, P k p s := by
  obtain ⟨hinv, hwf⟩ := parseAll_init_pres P maxp thrM hP inputs st hpa
  obtain ⟨k, ps2, p, hkp, hpl⟩ := (allValues_mem _ s).mp hs
  obtain ⟨ps, hps, rfl⟩ := collapseAll_mem thrS st.sigs k ps2 hkp
  obtain ⟨leaf, hleaf, hcl⟩ := filterMap_collapse_mem k thrS ps p s hpl
  have hne : leaf ≠ [] := ((hwf.2 k ps hps).2 p leaf hleaf).1
  have hmem : s ∈ leaf := collapseLeaf_some_mem k thrS leaf s hne hcl
  exact ⟨k, p, hinv k ps hps p leaf hleaf s hmem⟩

/-- C4: the completeness score is `100 * (1 - masked/total)` over the prelude
concatenated with the postlude, and for every threshold in `(0, 100)` no
emitted record line has a masked fraction exceeding `1 - threshold/100`
(such records are dropped by the gate at lines 144-150 before insertion). -/
theorem c4_completeness_formula_and_gate :
    (∀ tokens : List Str, 0 < (mbytesOf tokens).length →
      calculate_stat_bytes tokens =
        100 * (1 - ((mbytesOf tokens).count '.' : ℚ) / ((mbytesOf tokens).length : ℚ))) ∧
    (∀ (inputs : List (List Str)) (maxpArg : ℕ) (thrM thrS : ℚ) (auto : Bool)
      (out : List Str) (L : Str), 0 < thrM → thrM < 100 →
      runAll inputs maxpArg thrM auto thrS = .ok out →
      (L ++ ['\n']) ∈ out → L ≠ lit "---" →
      ¬ (1 - thrM / 100 <
        ((mbytesOf (splitSp L)).count '.' : ℚ) / ((mbytesOf (splitSp L)).length : ℚ))) := by
  constructor
  · intro tokens _
    unfold calculate_stat_bytes
    ring
  · intro inputs maxpArg thrM thrS auto out L hpos hlt hrun hmem hne
    obtain ⟨st, res, t, r, d, hpa, hhc, rfl⟩ := runAll_ok_inv inputs maxpArg thrM auto thrS _ hrun
    obtain ⟨hres, -, -, -⟩ := handle_conflicts_ok_res st.sigs auto thrS res t r d hhc
    subst hres
    rcases generate_mem _ _ hmem with h2 | ⟨s, hsv, heq⟩
    · have : L = lit "---" := by
        have h3 := congrArg List.dropLast h2
        rwa [List.dropLast_concat, show lit "---\n" = lit "---" ++ ['\n'] from rfl,
          List.dropLast_concat] at h3
      exact absurd this hne
    · have hLs : L = s := by
        have h3 := congrArg List.dropLast heq
        rwa [List.dropLast_concat, List.dropLast_concat] at h3
      subst hLs
      obtain ⟨k, p, hg⟩ := emitted_good (GoodRec thrM) (maxpArg * 2) thrM
        (parseLine_ok_good (maxpArg * 2) thrM) inputs st thrS L hpa hsv
      have hstat : thrM ≤ calculate_stat_bytes (splitSp L) := hg.2.2.2.2.2.2
      unfold calculate_stat_bytes at hstat
      intro hcon
      linarith

/-- Witness for C4: the formula at a half-masked prelude, and the gate on a
concrete emitted file. -/
theorem c4_completeness_formula_and_gate_witness :
    calculate_stat_bytes (splitSp (lit "AA.. 08 1234 0010 0000 foo")) =
      100 * (1 - ((mbytesOf (splitSp (lit "AA.. 08 1234 0010 0000 foo"))).count '.' : ℚ) /
        ((mbytesOf (splitSp (lit "AA.. 08 1234 0010 0000 foo"))).length : ℚ)) ∧
    ¬ (1 - (50 : ℚ) / 100 <
      ((mbytesOf (splitSp (lit "AABB 08 1234 0010 0000 foo"))).count '.' : ℚ) /
        ((mbytesOf (splitSp (lit "AABB 08 1234 0010 0000 foo"))).length : ℚ)) := by
  constructor
  · exact c4_completeness_formula_and_gate.1 (splitSp (lit "AA.. 08 1234 0010 0000 foo"))
      (by with_unfolding_all decide)
  · exact c4_completeness_formula_and_gate.2 [[lit "AABB 08 1234 0010 0000 foo"]] 64 50 (1/2)
      true [lit "AABB 08 1234 0010 0000 foo\n", lit "---\n"]
      (lit "AABB 08 1234 0010 0000 foo")
      (by norm_num) (by norm_num)
      (by with_unfolding_all decide)
      (by with_unfolding_all decide)
      (by with_unfolding_all decide)

/-!
### Unresolved conflicts abort the run: C8
-/

theorem leafCheck_conflict (leaf : List Str) (hne : leaf ≠ []) (h2 : 2 ≤ leaf.length) :
    leafCheck false leaf = .error .conflictExit := by
  unfold leafCheck
  rw [if_neg (by simpa using fun hc => hne (List.length_eq_zero.mp hc)),
    if_pos ⟨h2, rfl⟩]

theorem leafCheck_small (resolve : Bool) (leaf : List Str) (hne : leaf ≠ [])
    (h2 : ¬ 2 ≤ leaf.length) : leafCheck resolve leaf = .ok () := by
  unfold leafCheck
  rw [if_neg (by simpa using fun hc => hne (List.length_eq_zero.mp hc)),
    if_neg (by intro hc; exact h2 hc.1)]

theorem checkLeaves_ok_or_conflict (ps : List (Str × List Str))
    (hne : ∀ p leaf, (p, leaf) ∈ ps → leaf ≠ []) :
    checkLeaves false ps = .ok () ∨ checkLeaves false ps = .error .conflictExit := by
  induction ps with
  | nil => exact Or.inl rfl
  | cons hd rest ih =>
    obtain ⟨p2, leaf2⟩ := hd
    have hne2 : leaf2 ≠ [] := hne p2 leaf2 (List.mem_cons_self _ _)
    by_cases h2 : 2 ≤ leaf2.length
    · right
      rw [checkLeaves, leafCheck_conflict leaf2 hne2 h2]
    · have hok := leafCheck_small false leaf2 hne2 h2
      rw [checkLeaves, hok]
      exact ih (fun p leaf hm => hne p leaf (List.mem_cons_of_mem _ hm))

theorem checkLeaves_conflict (ps : List (Str × List Str))
    (hne : ∀ p leaf, (p, leaf) ∈ ps → leaf ≠ [])
    (hconf : ∃ p leaf, (p, leaf) ∈ ps ∧ 2 ≤ leaf.length) :
    checkLeaves false ps = .error .conflictExit := by
  induction ps with
  | nil =>
    obtain ⟨p, leaf, hm, -⟩ := hconf
    exact absurd hm (List.not_mem_nil _)
  | cons hd rest ih =>
    obtain ⟨p2, leaf2⟩ := hd
    have hne2 : leaf2 ≠ [] := hne p2 leaf2 (List.mem_cons_self _ _)
    by_cases h2 : 2 ≤ leaf2.length
    · rw [checkLeaves, leafCheck_conflict leaf2 hne2 h2]
    · have hok := leafCheck_small false leaf2 hne2 h2
      rw [checkLeaves, hok]
      apply ih (fun p leaf hm => hne p leaf (List.mem_cons_of_mem _ hm))
      obtain ⟨p, leaf, hm, hlen⟩ := hconf
      rcases List.mem_cons.mp hm with hh | hh
      · injection hh with ha hb
        rw [hb] at hlen
        exact absurd hlen h2
      · exact ⟨p, leaf, hh, hlen⟩

theorem checkAll_conflict (sigs : Sigs)
    (hne : ∀ k ps, (k, ps) ∈ sigs → ∀ p leaf, (p, leaf) ∈ ps → leaf ≠ [])
    (hconf : ∃ k ps p leaf, (k, ps) ∈ sigs ∧ (p, leaf) ∈ ps ∧ 2 ≤ leaf.length) :
    checkAll false sigs = .error .conflictExit := by
  induction sigs with
  | nil =>
    obtain ⟨k, ps, p, leaf, hm, -, -⟩ := hconf
    exact absurd hm (List.not_mem_nil _)
  | cons hd rest ih =>
    obtain ⟨k2, ps2⟩ := hd
    have hne2 : ∀ p leaf, (p, leaf) ∈ ps2 → leaf ≠ [] :=
      fun p leaf hm => hne k2 ps2 (List.mem_cons_self _ _) p leaf hm
    rcases checkLeaves_ok_or_conflict ps2 hne2 with hok | herr
    · rw [checkAll, hok]
      apply ih (fun k ps hm => hne k ps (List.mem_cons_of_mem _ hm))
      obtain ⟨k, ps, p, leaf, hm, hm2, hlen⟩ := hconf
      rcases List.mem_cons.mp hm with hh | hh
      · exfalso
        injection hh with ha hb
        rw [hb] at hm2
        rw [checkLeaves_conflict ps2 hne2 ⟨p, leaf, hm2, hlen⟩] at hok
        exact Except.noConfusion hok
      · exact ⟨k, ps, p, leaf, hh, hm2, hlen⟩
    · rw [checkAll, herr]

/-- C8: if automatic resolution is off and some leaf of the parsed structure
holds two or more distinct records, the run aborts with the conflict
`sys.exit(1)` — `runAll` returns the error branch, and `generate` (the only
writer of output) is reached only on the `ok` branch, so no output lines
exist on this path. -/
theorem c8_conflict_without_auto_aborts
    (inputs : List (List Str)) (maxpArg : ℕ) (thrM thrS : ℚ) (st : PState)
    (k p : Str) (leaf : List Str)
    (hpa : parseAll (maxpArg * 2) thrM inputs initState = .ok st)
    (hl : lookupSigs st.sigs k p = some leaf)
    (h2 : 2 ≤ leaf.length) :
    runAll inputs maxpArg thrM false thrS = .error .conflictExit := by
  have hwf := (parseAll_init_pres (fun _ _ _ => True) (maxpArg * 2) thrM
    (fun _ _ _ _ _ => trivial) inputs st hpa).2
  have hne : ∀ k2 ps, (k2, ps) ∈ st.sigs → ∀ p2 leaf2, (p2, leaf2) ∈ ps → leaf2 ≠ [] :=
    fun k2 ps hm p2 leaf2 hm2 => ((hwf.2 k2 ps hm).2 p2 leaf2 hm2).1
  unfold lookupSigs at hl
  cases hlk : lookupKey st.sigs k with
  | none => rw [hlk] at hl; exact Option.noConfusion hl
  | some ps =>
    rw [hlk] at hl
    have hm1 := lookupKey_mem st.sigs k ps hlk
    have hm2 := lookupKey_mem ps p leaf hl
    have hchk := checkAll_conflict st.sigs hne ⟨k, ps, p, leaf, hm1, hm2, h2⟩
    have hh : handle_conflicts st.sigs false thrS = .error .conflictExit := by
      unfold handle_conflicts
      rw [hchk]
    unfold runAll
    rw [hpa]
    dsimp only
    rw [hh]

/-- Witness for C8: two records with the same key and prelude but different
symbols, auto-resolve off. -/
theorem c8_conflict_without_auto_aborts_witness :
    runAll [[lit "AABB 08 1234 0010 0000 foo", lit "AABB 08 1234 0010 0000 bar"]]
      64 50 false (33/50) = .error .conflictExit := by
  apply c8_conflict_without_auto_aborts
    [[lit "AABB 08 1234 0010 0000 foo", lit "AABB 08 1234 0010 0000 bar"]] 64 50 (33/50)
    ⟨[(lit "08 1234", [(lit "AABB",
      [lit "AABB 08 1234 0010 0000 foo", lit "AABB 08 1234 0010 0000 bar"])])], 2, 0⟩
    (lit "08 1234") (lit "AABB")
    [lit "AABB 08 1234 0010 0000 foo", lit "AABB 08 1234 0010 0000 bar"]
  · with_unfolding_all decide
  · with_unfolding_all decide
  · with_unfolding_all decide

/-!
### Shape of the emitted file: C10
-/

def preOf (s : Str) : Str := (splitSp s).getD 0 []

def keyOf (s : Str) : Str := (splitSp s).getD 1 [] ++ ' ' :: (splitSp s).getD 2 []

theorem filterMap_collapse_fst_sublist (k : Str) (thr : ℚ) (ps : List (Str × List Str)) :
    ((ps.filterMap (fun pl =>
      (collapseLeaf k thr pl.2).map (fun s => (pl.1, s)))).map Prod.fst).Sublist
      (ps.map Prod.fst) := by
  induction ps with
  | nil => simp
  | cons pl rest ih =>
    rw [List.filterMap_cons]
    cases hcl : collapseLeaf k thr pl.2 with
    | none =>
      simp only [Option.map_none, List.map_cons]
      exact ih.cons pl.1
    | some s =>
      simp only [Option.map_some, List.map_cons]
      exact ih.cons₂ pl.1

theorem collapseAll_fsts (thr : ℚ) (sigs : Sigs) :
    (collapseAll thr sigs).map Prod.fst = sigs.map Prod.fst := by
  unfold collapseAll
  rw [List.map_map]
  rfl

/-- Every (prelude, value) pair of the collapsed structure satisfies the
parse-time field discipline: the stored string's fields 0-2 recover the leaf
prelude and group key. -/
theorem collapsed_value_fields (thrM thrS : ℚ) (sigs : Sigs)
    (hinv : SigsInv (GoodRec thrM) sigs) (hwf : SigsWF sigs) :
    ∀ k ps2, (k, ps2) ∈ collapseAll thrS sigs → ∀ pr ∈ ps2,
      pr.1 = preOf pr.2 ∧ k = keyOf pr.2 ∧ 6 ≤ (splitSp pr.2).length := by
  intro k ps2 hmem pr hpr
  obtain ⟨ps, hps, rfl⟩ := collapseAll_mem thrS sigs k ps2 hmem
  obtain ⟨p2, s2⟩ := pr
  obtain ⟨leaf, hleaf, hcl⟩ := filterMap_collapse_mem k thrS ps p2 s2 hpr
  have hne : leaf ≠ [] := ((hwf.2 k ps hps).2 p2 leaf hleaf).1
  have hmem2 : s2 ∈ leaf := collapseLeaf_some_mem k thrS leaf s2 hne hcl
  have hg := hinv k ps hps p2 leaf hleaf s2 hmem2
  exact ⟨hg.2.1, hg.2.2.1, hg.1⟩

theorem nodup_map_snd (l : List (Str × Str)) (f : Str → Str)
    (hdet : ∀ pr ∈ l, pr.1 = f pr.2) (hnd : (l.map Prod.fst).Nodup) :
    (l.map Prod.snd).Nodup := by
  induction l with
  | nil => simp
  | cons pr rest ih =>
    simp only [List.map_cons, List.nodup_cons] at hnd ⊢
    constructor
    · intro hmem
      rw [List.mem_map] at hmem
      obtain ⟨pr2, hpr2, hsnd⟩ := hmem
      apply hnd.1
      rw [List.mem_map]
      refine ⟨pr2, hpr2, ?_⟩
      rw [hdet pr2 (List.mem_cons_of_mem _ hpr2), hsnd,
        ← hdet pr (List.mem_cons_self _ _)]
    · exact ih (fun pr2 hpr2 => hdet pr2 (List.mem_cons_of_mem _ hpr2)) hnd.2

theorem allValues_nodup (thrM thrS : ℚ) (sigs : Sigs)
    (hinv : SigsInv (GoodRec thrM) sigs) (hwf : SigsWF sigs) :
    (allValues (collapseAll thrS sigs)).Nodup := by
  unfold allValues
  rw [List.nodup_flatten]
  have hfields := collapsed_value_fields thrM thrS sigs hinv hwf
  constructor
  · intro l hl
    rw [List.mem_map] at hl
    obtain ⟨kp, hkp, rfl⟩ := hl
    obtain ⟨k2, ps2⟩ := kp
    apply nodup_map_snd ps2 preOf
    · intro pr hpr
      exact (hfields k2 ps2 hkp pr hpr).1
    · obtain ⟨ps, hps, rfl⟩ := collapseAll_mem thrS sigs k2 ps2 hkp
      exact (filterMap_collapse_fst_sublist k2 thrS ps).nodup (hwf.2 k2 ps hps).1
  · rw [List.pairwise_map]
    have hkeys : (collapseAll thrS sigs).Pairwise (fun a b => a.1 ≠ b.1) := by
      have hnd : ((collapseAll thrS sigs).map Prod.fst).Nodup := by
        rw [collapseAll_fsts]
        exact hwf.1
      rw [List.Nodup, List.pairwise_map] at hnd
      exact hnd
    apply List.Pairwise.imp_of_mem ?_ hkeys
    intro a b ha hb hab
    intro s hsa hsb
    rw [List.mem_map] at hsa hsb
    obtain ⟨pra, hpra, rfl⟩ := hsa
    obtain ⟨prb, hprb, hprs⟩ := hsb
    apply hab
    rw [(hfields a.1 a.2 ha pra hpra).2.1,
      (hfields b.1 b.2 hb prb hprb).2.1, hprs]

theorem allValues_length (res : RSigs) :
    (allValues res).length = (res.map (fun kp => kp.2.length)).sum := by
  induction res with
  | nil => rfl
  | cons kp rest ih =>
    unfold allValues at ih ⊢
    simp only [List.map_cons, List.flatten_cons, List.length_append, List.length_map,
      List.sum_cons]
    rw [ih]

/-- C10: after a successful `handle_conflicts`, the emitted file has exactly
one line per surviving leaf plus the sentinel, the record lines are
pairwise distinct and sorted by the Python string order, every surviving
leaf value appears as a line, and the sentinel is the last line.
By the type of the collapsed structure, each surviving leaf holds exactly
one canonical-with-symbol string (its `Str` value). -/
theorem c10_emitted_shape (inputs : List (List Str)) (maxpArg : ℕ)
    (thrM thrS : ℚ) (auto : Bool) (st : PState) (res : RSigs) (t r d : ℕ)
    (hpa : parseAll (maxpArg * 2) thrM inputs initState = .ok st)
    (hhc : handle_conflicts st.sigs auto thrS = .ok (res, t, r, d)) :
    (generate res).length = ((res.map (fun kp => kp.2.length)).sum) + 1 ∧
    (generate res).getLast? = some (lit "---\n") ∧
    ((generate res).dropLast).Pairwise (fun a b => strLe a b = true) ∧
    (generate res).Nodup ∧
    (∀ k ps p s, (k, ps) ∈ res → (p, s) ∈ ps → (s ++ ['\n']) ∈ generate res) := by
  obtain ⟨hres, -, -, -⟩ := handle_conflicts_ok_res st.sigs auto thrS res t r d hhc
  obtain ⟨hinv, hwf⟩ := parseAll_init_pres (GoodRec thrM) (maxpArg * 2) thrM
    (parseLine_ok_good (maxpArg * 2) thrM) inputs st hpa
  subst hres
  have hvnodup := allValues_nodup thrM thrS st.sigs hinv hwf
  have hfields := collapsed_value_fields thrM thrS st.sigs hinv hwf
  refine ⟨?_, ?_, ?_, ?_, ?_⟩
  · unfold generate
    rw [List.length_append, sortStr_length, List.length_map, allValues_length]
    rfl
  · unfold generate
    exact List.getLast?_concat _
  · unfold generate
    rw [List.dropLast_concat]
    exact sortStr_sorted _
  · unfold generate
    rw [List.nodup_append]
    refine ⟨?_, by simp, ?_⟩
    · rw [(sortStr_perm _).nodup_iff]
      apply List.Nodup.map ?_ hvnodup
      intro a b hab
      have h2 := congrArg List.dropLast hab
      rwa [List.dropLast_concat, List.dropLast_concat] at h2
    · intro l hl
      rw [sortStr_mem, List.mem_map] at hl
      obtain ⟨s, hs, rfl⟩ := hl
      simp only [List.mem_singleton]
      intro hc
      obtain ⟨k, ps2, p, hkp, hpl⟩ := (allValues_mem _ s).mp hs
      have hlen := (hfields k ps2 hkp (p, s) hpl).2.2
      have hsm : s = lit "---" := by
        have h2 := congrArg List.dropLast hc
        rwa [List.dropLast_concat, show lit "---\n" = lit "---" ++ ['\n'] from rfl,
          List.dropLast_concat] at h2
      rw [hsm] at hlen
      simp [splitSp] at hlen
  · intro k ps p s hkp hpl
    unfold generate
    apply List.mem_append_left
    rw [sortStr_mem, List.mem_map]
    refine ⟨s, ?_, rfl⟩
    rw [allValues_mem]
    exact ⟨k, ps, p, hkp, hpl⟩

/-- Witness for C10 at a concrete two-record run (two distinct keys). -/
theorem c10_emitted_shape_witness :
    (generate (collapseAll (1/2)
      [(lit "08 1234", [(lit "AABB", [lit "AABB 08 1234 0010 0000 foo"])]),
       (lit "09 5678", [(lit "CCDD", [lit "CCDD 09 5678 0010 0000 bar"])])])).length = 3 ∧
    (generate (collapseAll (1/2)
      [(lit "08 1234", [(lit "AABB", [lit "AABB 08 1234 0010 0000 foo"])]),
       (lit "09 5678", [(lit "CCDD", [lit "CCDD 09 5678 0010 0000 bar"])])])).getLast?
      = some (lit "---\n") := by
  have h := c10_emitted_shape
    [[lit "AABB 08 1234 0010 0000 foo", lit "CCDD 09 5678 0010 0000 bar"]] 64 50 (1/2) true
    ⟨[(lit "08 1234", [(lit "AABB", [lit "AABB 08 1234 0010 0000 foo"])]),
      (lit "09 5678", [(lit "CCDD", [lit "CCDD 09 5678 0010 0000 bar"])])], 2, 0⟩
    (collapseAll (1/2)
      [(lit "08 1234", [(lit "AABB", [lit "AABB 08 1234 0010 0000 foo"])]),
       (lit "09 5678", [(lit "CCDD", [lit "CCDD 09 5678 0010 0000 bar"])])])
    (nTotal [(lit "08 1234", [(lit "AABB", [lit "AABB 08 1234 0010 0000 foo"])]),
       (lit "09 5678", [(lit "CCDD", [lit "CCDD 09 5678 0010 0000 bar"])])])
    (nResolved [(lit "08 1234", [(lit "AABB", [lit "AABB 08 1234 0010 0000 foo"])]),
       (lit "09 5678", [(lit "CCDD", [lit "CCDD 09 5678 0010 0000 bar"])])] (1/2))
    (nDropped [(lit "08 1234", [(lit "AABB", [lit "AABB 08 1234 0010 0000 foo"])]),
       (lit "09 5678", [(lit "CCDD", [lit "CCDD 09 5678 0010 0000 bar"])])] (1/2))
    (by with_unfolding_all decide)
    (handle_conflicts_eq_ok _ true (1/2) (by with_unfolding_all decide)
      (by with_unfolding_all decide))
  refine ⟨?_, h.2.1⟩
  rw [h.1]
  with_unfolding_all decide

/-!
### C9: idempotence of re-aggregation

The unrestricted claim is false: the empty-token quirk of the postlude
block (an empty `tokens[6]`, produced by a double space, is popped and the
*unprocessed* token behind it slides into position 6) lets a first run emit
a record whose postlude exceeds the stored cap, and a second run over that
output truncates it.  The counterexample below exhibits the two
byte-different outputs.  The amended theorem proves the restricted
idempotence that does hold: a file whose record lines are already
parser-stable (stripped, non-comment, at least 6 fields, good symbol,
nonzero size, non-masked prelude, a postlude that the cap and the mask
stripping leave unchanged, completeness at or above the mask threshold),
pairwise distinct on (group key, prelude) and sorted, followed by the
sentinel, is reproduced byte for byte.
-/

/-- Strings held by the inner structure of one group key, in order. -/
def innerStrings (ps : List (Str × List Str)) : List Str :=
  (ps.map (fun pl => pl.2)).flatten

/-- All strings held by the grouping structure, in structure order. -/
def leafStrings (sigs : Sigs) : List Str :=
  (sigs.map (fun kp => innerStrings kp.2)).flatten

/-- Every leaf of the structure holds exactly one string. -/
def SingletonInv (sigs : Sigs) : Prop :=
  ∀ k ps, (k, ps) ∈ sigs → ∀ p leaf, (p, leaf) ∈ ps → ∃ s, leaf = [s]

/-- A line in the form `PatFile.parse` leaves untouched: already stripped,
not a comment, at least 6 space-separated fields, a kept symbol, nonzero
size field, non-masked prelude, a postlude (when present) that neither the
stored cap nor the mask stripping alters, and completeness at or above the
mask threshold. -/
def stableLine (maxp : ℕ) (thrM : ℚ) (L : Str) : Prop :=
  pyStrip L = L ∧
  (lit "#").isPrefixOf L = false ∧
  6 ≤ (splitSp L).length ∧
  is_bad_symbol ((splitSp L).getD 5 []) = false ∧
  (splitSp L).getD 3 [] ≠ lit "0000" ∧
  allDots ((splitSp L).getD 0 []) = false ∧
  (6 < (splitSp L).length →
    maxp ≠ 0 ∧ ((splitSp L).getD 6 []).length ≤ maxp ∧
    rstripDots ((splitSp L).getD 6 []) = (splitSp L).getD 6 [] ∧
    allDots ((splitSp L).getD 6 []) = false) ∧
  thrM ≤ calculate_stat_bytes (splitSp L)

instance stableLineDec (maxp : ℕ) (thrM : ℚ) (L : Str) :
    Decidable (stableLine maxp thrM L) := by
  unfold stableLine
  infer_instance

instance strLeAntisymmInst : IsAntisymm Str (fun a b => strLe a b = true) :=
  ⟨strLe_antisymm⟩

theorem lookupKey_cons {α : Type} (k2 : Str) (v : α) (rest : List (Str × α)) (k : Str) :
    lookupKey ((k2, v) :: rest) k = if k2 = k then some v else lookupKey rest k := rfl

theorem addInner_cons (p2 : Str) (leaf : List Str) (rest : List (Str × List Str))
    (p s : Str) :
    addInner ((p2, leaf) :: rest) p s =
      if p2 = p then (p2, if s ∈ leaf then leaf else leaf ++ [s]) :: rest
      else (p2, leaf) :: addInner rest p s := rfl

theorem addLeaf_cons (k2 : Str) (ps : List (Str × List Str)) (rest : Sigs)
    (k p s : Str) :
    addLeaf ((k2, ps) :: rest) k p s =
      if k2 = k then (k2, addInner ps p s) :: rest
      else (k2, ps) :: addLeaf rest k p s := rfl

theorem parseAll_cons (maxp : ℕ) (thr : ℚ) (f : List Str) (fs : List (List Str))
    (st : PState) :
    parseAll maxp thr (f :: fs) st =
      match parseLines maxp thr f st with
      | .error e => .error e
      | .ok st2 => parseAll maxp thr fs st2 := rfl

theorem parseLines_cons (maxp : ℕ) (thr : ℚ) (l : Str) (ls : List Str) (st : PState) :
    parseLines maxp thr (l :: ls) st =
      match parseLine maxp thr l with
      | .skip => parseLines maxp thr ls st
      | .sentinel => .ok st
      | .err => .error .indexError
      | .dropped => parseLines maxp thr ls ⟨st.sigs, st.nsig + 1, st.ndrop + 1⟩
      | .ok k p s => parseLines maxp thr ls ⟨addLeaf st.sigs k p s, st.nsig + 1, st.ndrop⟩ :=
  rfl

theorem set_getD_self (l : List Str) (n : ℕ) (hn : n < l.length) :
    l.set n (l.getD n []) = l := by
  induction l generalizing n with
  | nil => simp at hn
  | cons a rest ih =>
    cases n with
    | zero => rfl
    | succ m =>
      have hn2 : m < rest.length := by simpa using hn
      show a :: rest.set m ((a :: rest).getD (m + 1) []) = a :: rest
      have hg : (a :: rest).getD (m + 1) [] = rest.getD m [] := rfl
      rw [hg, ih m hn2]

/-- A parser-stable line is parsed into exactly itself, keyed by its own
key and prelude fields. -/
theorem stable_parseLine (maxp : ℕ) (thrM : ℚ) (L : Str)
    (h : stableLine maxp thrM L) :
    parseLine maxp thrM L = .ok (keyOf L) (preOf L) L := by
  obtain ⟨hstrip, hhash, hlen, hbad, hzero, hdots, hpost, hstat⟩ := h
  have hnil : L ≠ [] := by
    intro hc
    rw [hc] at hlen
    simp [splitSp] at hlen
  have hsent : L ≠ lit "---" := by
    intro hc
    rw [hc] at hlen
    have h1 : splitSp (lit "---") = [lit "---"] := by decide
    rw [h1] at hlen
    simp at hlen
  unfold parseLine
  rw [hstrip]
  rw [if_neg (by simp [hhash, hnil])]
  rw [if_neg hsent]
  rw [if_neg (by omega)]
  rw [if_neg (by rw [hbad]; simp)]
  rw [if_neg hzero]
  rw [if_neg (by rw [hdots]; simp)]
  have hps : postludeStep maxp (splitSp L) = some (splitSp L) := by
    unfold postludeStep
    by_cases h6 : 6 < (splitSp L).length
    · rw [if_pos h6]
      obtain ⟨hm0, hlen6, hrs, hdots6⟩ := hpost h6
      have htr : postludeTrunc maxp (splitSp L) = splitSp L := by
        unfold postludeTrunc
        rw [if_neg hm0, if_neg (by omega)]
      rw [htr]
      rw [if_neg (by omega)]
      have hstr : postludeStrip (splitSp L) = splitSp L := by
        unfold postludeStrip
        rw [hrs]
        exact set_getD_self (splitSp L) 6 h6
      rw [hstr, if_neg (by rw [hdots6]; simp)]
    · rw [if_neg h6]
  rw [hps]
  dsimp only
  rw [if_neg (not_lt.mpr hstat)]
  rw [joinSp_splitSp]
  rfl

/-- The sentinel line stops the file loop no matter the parameters. -/
theorem parseLine_sentinel (maxp : ℕ) (thr : ℚ) :
    parseLine maxp thr (lit "---") = .sentinel := rfl

theorem lookupKey_addInner_other (ps : List (Str × List Str)) (p s p' : Str)
    (hne : p ≠ p') :
    lookupKey (addInner ps p s) p' = lookupKey ps p' := by
  induction ps with
  | nil =>
    show lookupKey [(p, [s])] p' = lookupKey ([] : List (Str × List Str)) p'
    rw [lookupKey_cons, if_neg hne]
  | cons hd rest ih =>
    obtain ⟨p2, leaf⟩ := hd
    rw [addInner_cons]
    by_cases h2 : p2 = p
    · rw [if_pos h2]
      have hp2 : p2 ≠ p' := by rw [h2]; exact hne
      rw [lookupKey_cons, lookupKey_cons, if_neg hp2, if_neg hp2]
    · rw [if_neg h2, lookupKey_cons, lookupKey_cons]
      by_cases hp : p2 = p'
      · rw [if_pos hp, if_pos hp]
      · rw [if_neg hp, if_neg hp, ih]

theorem lookupKey_addLeaf_ne (sigs : Sigs) (k p s k' : Str) (hne : k ≠ k') :
    lookupKey (addLeaf sigs k p s) k' = lookupKey sigs k' := by
  induction sigs with
  | nil =>
    show lookupKey [(k, [(p, [s])])] k' = lookupKey ([] : Sigs) k'
    rw [lookupKey_cons, if_neg hne]
  | cons hd rest ih =>
    obtain ⟨k2, ps⟩ := hd
    rw [addLeaf_cons]
    by_cases h2 : k2 = k
    · rw [if_pos h2]
      have hk2 : k2 ≠ k' := by rw [h2]; exact hne
      rw [lookupKey_cons, lookupKey_cons, if_neg hk2, if_neg hk2]
    · rw [if_neg h2, lookupKey_cons, lookupKey_cons]
      by_cases hk : k2 = k'
      · rw [if_pos hk, if_pos hk]
      · rw [if_neg hk, if_neg hk, ih]

theorem lookupKey_addLeaf_self (sigs : Sigs) (k p s : Str) :
    lookupKey (addLeaf sigs k p s) k =
      some (match lookupKey sigs k with
            | some ps => addInner ps p s
            | none => [(p, [s])]) := by
  induction sigs with
  | nil =>
    show lookupKey [(k, [(p, [s])])] k = _
    rw [lookupKey_cons, if_pos rfl]
    rfl
  | cons hd rest ih =>
    obtain ⟨k2, ps⟩ := hd
    rw [addLeaf_cons]
    by_cases h2 : k2 = k
    · rw [if_pos h2, lookupKey_cons, if_pos h2, lookupKey_cons, if_pos h2]
    · rw [if_neg h2, lookupKey_cons, lookupKey_cons, if_neg h2, if_neg h2, ih]

/-- Inserting under one (key, prelude) pair leaves every other pair's leaf
unchanged. -/
theorem lookupSigs_addLeaf_other (sigs : Sigs) (k p s k' p' : Str)
    (h : ¬ (k = k' ∧ p = p')) :
    lookupSigs (addLeaf sigs k p s) k' p' = lookupSigs sigs k' p' := by
  by_cases hk : k = k'
  · subst hk
    have hp : p ≠ p' := fun hc => h ⟨rfl, hc⟩
    unfold lookupSigs
    rw [lookupKey_addLeaf_self]
    cases hl : lookupKey sigs k with
    | none =>
      dsimp only
      rw [lookupKey_cons, if_neg hp]
      rfl
    | some ps =>
      dsimp only
      exact lookupKey_addInner_other ps p s p' hp
  · unfold lookupSigs
    rw [lookupKey_addLeaf_ne sigs k p s k' hk]

theorem innerStrings_cons (p : Str) (leaf : List Str) (rest : List (Str × List Str)) :
    innerStrings ((p, leaf) :: rest) = leaf ++ innerStrings rest := by
  unfold innerStrings
  rw [List.map_cons, List.flatten_cons]

theorem leafStrings_cons (k : Str) (ps : List (Str × List Str)) (rest : Sigs) :
    leafStrings ((k, ps) :: rest) = innerStrings ps ++ leafStrings rest := by
  unfold leafStrings
  rw [List.map_cons, List.flatten_cons]

theorem addInner_strings_fresh (ps : List (Str × List Str)) (p s : Str)
    (hfresh : lookupKey ps p = none) :
    innerStrings (addInner ps p s) = innerStrings ps ++ [s] := by
  induction ps with
  | nil =>
    show innerStrings [(p, [s])] = innerStrings ([] : List (Str × List Str)) ++ [s]
    rw [innerStrings_cons]
    rfl
  | cons hd rest ih =>
    obtain ⟨p2, leaf⟩ := hd
    rw [lookupKey_cons] at hfresh
    by_cases h2 : p2 = p
    · rw [if_pos h2] at hfresh
      exact absurd hfresh (by simp)
    · rw [if_neg h2] at hfresh
      rw [addInner_cons, if_neg h2, innerStrings_cons, innerStrings_cons, ih hfresh,
        List.append_assoc]

/-- Inserting a string under a fresh (key, prelude) pair adds exactly that
string to the structure's contents. -/
theorem addLeaf_strings_fresh (sigs : Sigs) (k p s : Str)
    (hfresh : lookupSigs sigs k p = none) :
    (leafStrings (addLeaf sigs k p s)).Perm (s :: leafStrings sigs) := by
  induction sigs with
  | nil =>
    show (leafStrings [(k, [(p, [s])])]).Perm (s :: leafStrings ([] : Sigs))
    rw [leafStrings_cons, innerStrings_cons]
    exact List.Perm.refl _
  | cons hd rest ih =>
    obtain ⟨k2, ps⟩ := hd
    unfold lookupSigs at hfresh
    rw [lookupKey_cons] at hfresh
    by_cases h2 : k2 = k
    · rw [if_pos h2] at hfresh
      dsimp only at hfresh
      rw [addLeaf_cons, if_pos h2, leafStrings_cons, leafStrings_cons,
        addInner_strings_fresh ps p s hfresh]
      have h1 : (innerStrings ps ++ [s]) ++ leafStrings rest
          = innerStrings ps ++ s :: leafStrings rest := by
        rw [List.append_assoc]
        rfl
      rw [h1]
      exact List.perm_middle
    · rw [if_neg h2] at hfresh
      rw [addLeaf_cons, if_neg h2, leafStrings_cons, leafStrings_cons]
      have hperm := ih hfresh
      exact (List.Perm.append_left (innerStrings ps) hperm).trans List.perm_middle

theorem addInner_singleton_fresh (ps : List (Str × List Str)) (p s : Str)
    (hfresh : lookupKey ps p = none)
    (hinv : ∀ p2 leaf, (p2, leaf) ∈ ps → ∃ t, leaf = [t]) :
    ∀ p2 leaf, (p2, leaf) ∈ addInner ps p s → ∃ t, leaf = [t] := by
  induction ps with
  | nil =>
    intro p2 leaf hm
    simp only [addInner, List.mem_singleton] at hm
    injection hm with h1 h2
    exact ⟨s, h2⟩
  | cons hd rest ih =>
    obtain ⟨p3, leaf3⟩ := hd
    rw [lookupKey_cons] at hfresh
    by_cases h3 : p3 = p
    · rw [if_pos h3] at hfresh
      exact absurd hfresh (by simp)
    · rw [if_neg h3] at hfresh
      intro p2 leaf hm
      rw [addInner_cons, if_neg h3] at hm
      rcases List.mem_cons.mp hm with h | h
      · injection h with h1 h2
        obtain ⟨t, ht⟩ := hinv p3 leaf3 (List.mem_cons_self _ _)
        exact ⟨t, h2 ▸ ht⟩
      · exact ih hfresh (fun p4 l4 h4 => hinv p4 l4 (List.mem_cons_of_mem _ h4)) p2 leaf h

/-- Fresh insertion preserves the one-string-per-leaf invariant. -/
theorem addLeaf_singleton (sigs : Sigs) (k p s : Str)
    (hfresh : lookupSigs sigs k p = none)
    (hinv : SingletonInv sigs) :
    SingletonInv (addLeaf sigs k p s) := by
  induction sigs with
  | nil =>
    intro k2 ps2 hm p2 leaf hm2
    simp only [addLeaf, List.mem_singleton] at hm
    injection hm with h1 h2
    subst h2
    simp only [List.mem_singleton] at hm2
    injection hm2 with h3 h4
    exact ⟨s, h4⟩
  | cons hd rest ih =>
    obtain ⟨k3, ps3⟩ := hd
    unfold lookupSigs at hfresh
    rw [lookupKey_cons] at hfresh
    by_cases h3 : k3 = k
    · rw [if_pos h3] at hfresh
      dsimp only at hfresh
      intro k2 ps2 hm p2 leaf hm2
      rw [addLeaf_cons, if_pos h3] at hm
      rcases List.mem_cons.mp hm with h | h
      · injection h with h1 h2
        rw [h2] at hm2
        exact addInner_singleton_fresh ps3 p s hfresh
          (fun p4 l4 h4 => hinv k3 ps3 (List.mem_cons_self _ _) p4 l4 h4) p2 leaf hm2
      · exact hinv k2 ps2 (List.mem_cons_of_mem _ h) p2 leaf hm2
    · rw [if_neg h3] at hfresh
      have hfresh2 : lookupSigs rest k p = none := hfresh
      have hinv2 : SingletonInv rest :=
        fun k4 ps4 h4 => hinv k4 ps4 (List.mem_cons_of_mem _ h4)
      intro k2 ps2 hm p2 leaf hm2
      rw [addLeaf_cons, if_neg h3] at hm
      rcases List.mem_cons.mp hm with h | h
      · injection h with h1 h2
        rw [h2] at hm2
        exact hinv k3 ps3 (List.mem_cons_self _ _) p2 leaf hm2
      · exact ih hfresh2 hinv2 k2 ps2 h p2 leaf hm2

theorem innerStrings_length (ps : List (Str × List Str)) :
    (innerStrings ps).length = (ps.map (fun pl => pl.2.length)).sum := by
  induction ps with
  | nil => rfl
  | cons pl rest ih =>
    obtain ⟨p, leaf⟩ := pl
    rw [innerStrings_cons, List.length_append, ih, List.map_cons, List.sum_cons]

theorem nTotal_eq_length (sigs : Sigs) :
    nTotal sigs = (leafStrings sigs).length := by
  induction sigs with
  | nil => rfl
  | cons kp rest ih =>
    obtain ⟨k, ps⟩ := kp
    unfold nTotal at ih ⊢
    rw [List.map_cons, List.sum_cons, leafStrings_cons, List.length_append,
      innerStrings_length, ih]

theorem leafCheck_singleton (resolve : Bool) (s : Str) :
    leafCheck resolve [s] = .ok () := by
  unfold leafCheck
  rw [if_neg (by simp), if_neg (by simp)]

theorem checkLeaves_cons (resolve : Bool) (p : Str) (leaf : List Str)
    (rest : List (Str × List Str)) :
    checkLeaves resolve ((p, leaf) :: rest) =
      match leafCheck resolve leaf with
      | .error e => .error e
      | .ok _ => checkLeaves resolve rest := rfl

theorem checkLeaves_singleton (resolve : Bool) (ps : List (Str × List Str))
    (h : ∀ p leaf, (p, leaf) ∈ ps → ∃ s, leaf = [s]) :
    checkLeaves resolve ps = .ok () := by
  induction ps with
  | nil => rfl
  | cons pl rest ih =>
    obtain ⟨p, leaf⟩ := pl
    obtain ⟨s, hs⟩ := h p leaf (List.mem_cons_self _ _)
    rw [checkLeaves_cons, hs, leafCheck_singleton]
    exact ih (fun p2 l2 h2 => h p2 l2 (List.mem_cons_of_mem _ h2))

theorem checkAll_cons (resolve : Bool) (k : Str) (ps : List (Str × List Str))
    (rest : Sigs) :
    checkAll resolve ((k, ps) :: rest) =
      match checkLeaves resolve ps with
      | .error e => .error e
      | .ok _ => checkAll resolve rest := rfl

/-- A structure of singleton leaves passes the conflict scan no matter the
`--auto` flag: there is nothing to resolve. -/
theorem checkAll_ok_of_singleton (resolve : Bool) (sigs : Sigs)
    (hinv : SingletonInv sigs) :
    checkAll resolve sigs = .ok () := by
  induction sigs with
  | nil => rfl
  | cons kp rest ih =>
    obtain ⟨k, ps⟩ := kp
    rw [checkAll_cons, checkLeaves_singleton resolve ps
      (fun p leaf h => hinv k ps (List.mem_cons_self _ _) p leaf h)]
    exact ih (fun k2 ps2 h2 => hinv k2 ps2 (List.mem_cons_of_mem _ h2))

theorem collapseLeaf_singleton (crc : Str) (thr : ℚ) (s : Str) :
    collapseLeaf crc thr [s] = some s := by
  unfold collapseLeaf
  rw [sortStr_singleton]
  rw [if_pos (by simp)]
  rfl

theorem collapseAll_cons (thr : ℚ) (k : Str) (ps : List (Str × List Str)) (rest : Sigs) :
    collapseAll thr ((k, ps) :: rest) =
      (k, ps.filterMap (fun pl => (collapseLeaf k thr pl.2).map (fun s => (pl.1, s)))) ::
        collapseAll thr rest := rfl

theorem allValues_cons (k : Str) (ps2 : List (Str × Str)) (rest : RSigs) :
    allValues ((k, ps2) :: rest) = ps2.map (fun pl => pl.2) ++ allValues rest := rfl

theorem innerCollapse_singleton (k : Str) (thr : ℚ) (ps : List (Str × List Str))
    (h : ∀ p leaf, (p, leaf) ∈ ps → ∃ s, leaf = [s]) :
    (ps.filterMap (fun pl => (collapseLeaf k thr pl.2).map (fun s => (pl.1, s)))).map
        (fun pl => pl.2) = innerStrings ps := by
  induction ps with
  | nil => rfl
  | cons pl rest ih =>
    obtain ⟨p, leaf⟩ := pl
    obtain ⟨s, hs⟩ := h p leaf (List.mem_cons_self _ _)
    subst hs
    have hstep : List.filterMap (fun pl => (collapseLeaf k thr pl.2).map (fun s2 => (pl.1, s2)))
          (((p, [s]) : Str × List Str) :: rest) =
        (p, s) :: List.filterMap
          (fun pl => (collapseLeaf k thr pl.2).map (fun s2 => (pl.1, s2))) rest := by
      rw [List.filterMap_cons]
      dsimp only
      rw [collapseLeaf_singleton]
      rfl
    rw [hstep, List.map_cons, innerStrings_cons,
      ih (fun p2 l2 h2 => h p2 l2 (List.mem_cons_of_mem _ h2))]
    rfl

/-- Collapsing a structure of singleton leaves keeps every string, in
structure order. -/
theorem allValues_collapse_singleton (thr : ℚ) (sigs : Sigs)
    (hinv : SingletonInv sigs) :
    allValues (collapseAll thr sigs) = leafStrings sigs := by
  induction sigs with
  | nil => rfl
  | cons kp rest ih =>
    obtain ⟨k, ps⟩ := kp
    rw [collapseAll_cons, allValues_cons, leafStrings_cons,
      innerCollapse_singleton k thr ps
        (fun p leaf h => hinv k ps (List.mem_cons_self _ _) p leaf h),
      ih (fun k2 ps2 h2 => hinv k2 ps2 (List.mem_cons_of_mem _ h2))]

/-- Parsing a block of parser-stable lines with pairwise fresh
(key, prelude) pairs succeeds, adds exactly those lines to the structure,
and keeps every leaf a singleton. -/
theorem parse_stable_lines (maxp : ℕ) (thrM : ℚ) (lines : List Str) :
    ∀ (rest : List Str) (st : PState),
      (∀ L ∈ lines, parseLine maxp thrM L = .ok (keyOf L) (preOf L) L) →
      (∀ L ∈ lines, lookupSigs st.sigs (keyOf L) (preOf L) = none) →
      lines.Pairwise (fun a b => ¬ (keyOf a = keyOf b ∧ preOf a = preOf b)) →
      SingletonInv st.sigs →
      ∃ st2, parseLines maxp thrM (lines ++ rest) st = parseLines maxp thrM rest st2 ∧
        (leafStrings st2.sigs).Perm (lines ++ leafStrings st.sigs) ∧
        SingletonInv st2.sigs := by
  induction lines with
  | nil =>
    intro rest st _ _ _ hsing
    exact ⟨st, rfl, List.Perm.refl _, hsing⟩
  | cons L ls ih =>
    intro rest st hok hfresh hpw hsing
    have hL := hok L (List.mem_cons_self _ _)
    have hfL := hfresh L (List.mem_cons_self _ _)
    have hstep : parseLines maxp thrM ((L :: ls) ++ rest) st =
        parseLines maxp thrM (ls ++ rest)
          ⟨addLeaf st.sigs (keyOf L) (preOf L) L, st.nsig + 1, st.ndrop⟩ := by
      rw [List.cons_append, parseLines_cons, hL]
    obtain ⟨st2, heq, hperm, hsing2⟩ := ih rest
      ⟨addLeaf st.sigs (keyOf L) (preOf L) L, st.nsig + 1, st.ndrop⟩
      (fun L2 h2 => hok L2 (List.mem_cons_of_mem _ h2))
      (fun L2 h2 => by
        show lookupSigs (addLeaf st.sigs (keyOf L) (preOf L) L) (keyOf L2) (preOf L2) = none
        rw [lookupSigs_addLeaf_other _ _ _ _ _ _ ((List.pairwise_cons.mp hpw).1 L2 h2)]
        exact hfresh L2 (List.mem_cons_of_mem _ h2))
      (List.pairwise_cons.mp hpw).2
      (addLeaf_singleton st.sigs (keyOf L) (preOf L) L hfL hsing)
    refine ⟨st2, ?_, ?_, hsing2⟩
    · rw [hstep, heq]
    · have haddp := addLeaf_strings_fresh st.sigs (keyOf L) (preOf L) L hfL
      refine hperm.trans ?_
      exact (List.Perm.append_left ls haddp).trans List.perm_middle

/-- C9 counterexample: the double-space quirk breaks byte-identical
re-aggregation.  The first input line carries an empty 7th field, so the
parser pops it and the unprocessed over-cap postlude slides into position 6
and is emitted in full.  Feeding the emitted record line (plus the emitted
sentinel) back in with the same parameters truncates that postlude to the
stored cap, so the second output differs from the first. -/
theorem c9_reaggregation_counterexample :
    runAll [[lit "AABBCCDD 08 1234 0010 0000 foo  AABBCCDD"]] 2 50 true (1 / 2) =
      .ok [lit "AABBCCDD 08 1234 0010 0000 foo AABBCCDD\n", lit "---\n"] ∧
    runAll [[lit "AABBCCDD 08 1234 0010 0000 foo AABBCCDD", lit "---"]] 2 50 true (1 / 2) =
      .ok [lit "AABBCCDD 08 1234 0010 0000 foo AABB\n", lit "---\n"] ∧
    lit "AABBCCDD 08 1234 0010 0000 foo AABBCCDD\n" ≠
      lit "AABBCCDD 08 1234 0010 0000 foo AABB\n" := by
  refine ⟨?_, ?_, ?_⟩
  · with_unfolding_all decide
  · with_unfolding_all decide
  · with_unfolding_all decide

/-- C9 (amended): re-aggregation is byte-identical exactly on parser-stable
output.  For a nonempty list of record lines that are individually
parser-stable for the stored postlude cap and mask threshold, pairwise
distinct on (group key, prelude), and sorted (with their newlines) in the
emitted order, running the aggregator on that file (record lines followed
by the sentinel) under any `--auto` flag and any similarity threshold
emits exactly the same lines again: each line reparses to itself, lands in
its own singleton leaf, survives conflict handling untouched, and the
final sort is the identity.  The unrestricted spec claim is false: a first
run can emit a record violating stability (see the counterexample), which
a second run rewrites. -/
theorem c9_amended_idempotent_on_stable (lines : List Str) (maxpArg : ℕ)
    (thrM thrS : ℚ) (auto : Bool)
    (hne : lines ≠ [])
    (hstable : ∀ L ∈ lines, stableLine (maxpArg * 2) thrM L)
    (hdist : lines.Pairwise (fun a b => ¬ (keyOf a = keyOf b ∧ preOf a = preOf b)))
    (hsorted : (lines.map (fun L => L ++ ['\n'])).Pairwise (fun a b => strLe a b = true)) :
    runAll [lines ++ [lit "---"]] maxpArg thrM auto thrS =
      .ok (lines.map (fun L => L ++ ['\n']) ++ [lit "---\n"]) := by
  obtain ⟨st2, hpl, hperm, hsing⟩ := parse_stable_lines (maxpArg * 2) thrM lines
    [lit "---"] initState
    (fun L hL => stable_parseLine (maxpArg * 2) thrM L (hstable L hL))
    (fun L hL => rfl)
    hdist
    (fun k ps hm => absurd hm (List.not_mem_nil _))
  have hperm2 : (leafStrings st2.sigs).Perm lines := by
    have h0 : leafStrings initState.sigs = [] := rfl
    rw [h0, List.append_nil] at hperm
    exact hperm
  have hfile : parseLines (maxpArg * 2) thrM (lines ++ [lit "---"]) initState = .ok st2 := by
    rw [hpl, parseLines_cons, parseLine_sentinel]
  have hpa : parseAll (maxpArg * 2) thrM [lines ++ [lit "---"]] initState = .ok st2 := by
    rw [parseAll_cons, hfile]
    rfl
  have hchk : checkAll auto st2.sigs = .ok () := checkAll_ok_of_singleton auto st2.sigs hsing
  have hnt : ¬ nTotal st2.sigs < 1 := by
    rw [nTotal_eq_length, hperm2.length_eq]
    cases lines with
    | nil => exact absurd rfl hne
    | cons a l => simp
  have hhc := handle_conflicts_eq_ok st2.sigs auto thrS hchk hnt
  unfold runAll
  rw [hpa]
  dsimp only
  rw [hhc]
  dsimp only
  unfold generate
  rw [allValues_collapse_singleton thrS st2.sigs hsing]
  have hsortEq : sortStr ((leafStrings st2.sigs).map (fun s => s ++ ['\n'])) =
      lines.map (fun L => L ++ ['\n']) := by
    exact List.eq_of_perm_of_sorted ((sortStr_perm _).trans (hperm2.map _))
      (sortStr_sorted _) hsorted
  rw [hsortEq]

/-- Two already-emitted record lines to instantiate the amended C9
theorem. -/
def c9wLines : List Str :=
  [lit "AABBCCDD 08 1234 0010 0000 foo", lit "CCDDEEFF 09 5678 0010 0000 bar"]

theorem c9_amended_witness :
    runAll [c9wLines ++ [lit "---"]] 64 50 true (1 / 2) =
      .ok (c9wLines.map (fun L => L ++ ['\n']) ++ [lit "---\n"]) := by
  apply c9_amended_idempotent_on_stable
  · with_unfolding_all decide
  · with_unfolding_all decide
  · with_unfolding_all decide
  · with_unfolding_all decide

end SigDB
